import Mathlib

/-!
Verification development for `slrfield/cpf/cpf_interpolate.py`.

The module is embedded shallowly: astropy `Time` instants, MJD values,
seconds-of-day and Cartesian position components are modelled as exact
rationals (`ℚ`); numpy arrays become `List`s; numpy/scipy primitives used by
the code (`np.around`, `np.arange`, `np.median`, `np.diff(...).nonzero()`,
`scipy.interpolate.BarycentricInterpolator`) are modelled by their exact
mathematical semantics; Python exceptions become an `Except PyErr` error
channel.  The astropy frame machinery (`SkyCoord.transform_to`, used via
`itrs2horizon`) is an external collaborator and is passed in as an abstract
function parameter `H`; the string-level pieces (ISO timestamp parsing,
`iso2sod`) are modelled by taking the already-converted numeric values
(`ts_mjd`, `ts_sod`) as inputs.
-/

namespace SLR

open List

/-- Cartesian position, metres, as exact rationals. -/
abbrev Vec3 := ℚ × ℚ × ℚ

/-- Python exception channel: `ValueError`, a generic `Exception` with a
message, an `UnboundLocalError` for reading a never-assigned local variable,
and an `IndexError` from indexing into an empty selection. -/
inductive PyErr where
  | valueError (msg : String)
  | exceptionMsg (msg : String)
  | unboundLocal (varname : String)
  | indexError
deriving DecidableEq, Repr

/-- The text a Python interpreter attaches to each modelled exception. -/
def PyErr.message : PyErr → String
  | .valueError m => m
  | .exceptionMsg m => m
  | .unboundLocal v => "local variable " ++ v ++ " referenced before assignment"
  | .indexError => "index 0 is out of bounds"

/-- Boolean test that `needle` occurs as a contiguous run inside `hay`. -/
def containsSeq (needle : List Char) : List Char → Bool
  | [] => needle.isEmpty
  | c :: t => needle.isPrefixOf (c :: t) || containsSeq needle t

/-- Boolean substring test on strings. -/
def strContains (hay needle : String) : Bool := containsSeq needle.data hay.data

/-- Python slice `l[a:b]` with integer (possibly negative) bounds:
negative indices count from the end, and out-of-range bounds clip. -/
def pySlice (l : List α) (a b : ℤ) : List α :=
  (l.take ((if b < 0 then max ((l.length : ℤ) + b) 0 else min b (l.length : ℤ)).toNat)).drop
    ((if a < 0 then max ((l.length : ℤ) + a) 0 else min a (l.length : ℤ)).toNat)

/-- Lagrange basis weight `∏ j ≠ i, (x - xs_j)/(xs_i - xs_j)` for the node
set `xs` (models one barycentric weight of
`scipy.interpolate.BarycentricInterpolator` in exact arithmetic). -/
def lagrangeWeight (xs : List ℚ) (i : ℕ) (x : ℚ) : ℚ :=
  ∏ j ∈ (Finset.range xs.length).erase i, (x - xs.getD j 0) / (xs.getD i 0 - xs.getD j 0)

/-- Value at `x` of the interpolating polynomial through the points
`(xs_i, ys_i)`: exact-arithmetic semantics of evaluating
`BarycentricInterpolator(xs, ys)` at `x` (for distinct nodes the barycentric
form and the Lagrange form agree, and at a node the evaluator returns the
tabulated value, which the Lagrange form also does exactly). -/
def lagrangeEval (xs ys : List ℚ) (x : ℚ) : ℚ :=
  ∑ i ∈ Finset.range xs.length, ys.getD i 0 * lagrangeWeight xs i x

/-- Componentwise interpolation of a list of 3-vectors, as
`BarycentricInterpolator` does for a 2-d value array (each column, i.e. each
Cartesian component, interpolated independently on the shared axis). -/
def baryEval3 (xs : List ℚ) (ps : List Vec3) (x : ℚ) : Vec3 :=
  (lagrangeEval xs (ps.map (fun p => p.1)) x,
   lagrangeEval xs (ps.map (fun p => p.2.1)) x,
   lagrangeEval xs (ps.map (fun p => p.2.2)) x)

/-- Bracket search of `interp_ephem` (`cpf_interpolate.py` lines 262-263):
`np.diff(ts_quasi_mjd[j] >= ts_quasi_mjd_cpf).nonzero()[0][0]`, i.e. the
first index `i` at which the boolean `x ≥ axis_i` differs from
`x ≥ axis_(i+1)`; `none` models the `IndexError` raised when the boolean
series never changes. -/
def bracketIdx (axis : List ℚ) (x : ℚ) : Option ℕ :=
  (List.range (axis.length - 1)).find?
    (fun i => decide (axis.getD i 0 ≤ x) != decide (axis.getD (i+1) 0 ≤ x))

/-- One iteration of the `m <= n` loop of `interp_ephem`
(`cpf_interpolate.py` lines 261-268): locate the bracket index, return the
tabulated position if the query time is a sample time, otherwise evaluate
the 10-point interpolator on the window `[boundary-4, boundary+6)`. -/
def interpQuery (axis : List ℚ) (pos : List Vec3) (x : ℚ) : Except PyErr Vec3 :=
  match bracketIdx axis x with
  | none => .error .indexError
  | some b =>
    if x ∈ axis then .ok (pos.getD b (0, 0, 0))
    else .ok (baryEval3 (pySlice axis ((b : ℤ) - 4) ((b : ℤ) + 6))
                        (pySlice pos ((b : ℤ) - 4) ((b : ℤ) + 6)) x)

/-- The `else` branch of `interp_ephem` (query points not more numerous than
samples): the per-query loop, appending one interpolated vector per query
point, aborting on the first raised exception. -/
def interpSparse (axis : List ℚ) (pos : List Vec3) : List ℚ → Except PyErr (List Vec3)
  | [] => .ok []
  | x :: rest => do
    let v ← interpQuery axis pos x
    let vs ← interpSparse axis pos rest
    .ok (v :: vs)

/-- Query points falling in the half-open sample window
`[axis_i, axis_(i+1))`: the mask `flags` of `interp_ephem` line 254. -/
def windowFilter (axis : List ℚ) (i : ℕ) (q : List ℚ) : List ℚ :=
  q.filter (fun x => decide (axis.getD i 0 ≤ x) && decide (x < axis.getD (i+1) 0))

/-- The `m > n` branch of `interp_ephem` (`cpf_interpolate.py` lines
252-259): walk the sample windows in order, batch-evaluate the 10-point
interpolator of window `[i-4, i+6)` on the queries falling in
`[axis_i, axis_(i+1))`, and concatenate; `np.concatenate` of an empty list
raises `ValueError`. -/
def interpDense (q axis : List ℚ) (pos : List Vec3) : Except PyErr (List Vec3) :=
  let chunks := (List.range (axis.length - 1)).map (fun i =>
    (windowFilter axis i q).map (fun x =>
      baryEval3 (pySlice axis ((i : ℤ) - 4) ((i : ℤ) + 6))
                (pySlice pos ((i : ℤ) - 4) ((i : ℤ) + 6)) x))
  if chunks.all List.isEmpty then .error (.valueError "need at least one array to concatenate")
  else .ok chunks.flatten

/-- `interp_ephem` (`cpf_interpolate.py` lines 226-271): dense branch when
there are strictly more query points than samples, per-query branch
otherwise. -/
def interp_ephem (q axis : List ℚ) (pos : List Vec3) : Except PyErr (List Vec3) :=
  if axis.length < q.length then interpDense q axis pos else interpSparse axis pos q

/-- Value computed for one query point by the per-query (sparse) branch of
`interp_ephem`, as a total function: tabulated position at an exact sample
time, interpolated window value otherwise, junk on bracket failure. -/
def interpValue (axis : List ℚ) (pos : List Vec3) (x : ℚ) : Vec3 :=
  match bracketIdx axis x with
  | none => (0, 0, 0)
  | some b =>
    if x ∈ axis then pos.getD b (0, 0, 0)
    else baryEval3 (pySlice axis ((b : ℤ) - 4) ((b : ℤ) + 6))
                   (pySlice pos ((b : ℤ) - 4) ((b : ℤ) + 6)) x

/-- Value computed for one query point by the batched (dense) branch of
`interp_ephem`, as a total function: the window interpolator of the query's
bracket window, evaluated also at exact sample times. -/
def densePoint (axis : List ℚ) (pos : List Vec3) (x : ℚ) : Vec3 :=
  match bracketIdx axis x with
  | none => (0, 0, 0)
  | some b => baryEval3 (pySlice axis ((b : ℤ) - 4) ((b : ℤ) + 6))
                        (pySlice pos ((b : ℤ) - 4) ((b : ℤ) + 6)) x

/-- The `ValueError` message of the range check (`cpf_interpolate.py` lines
59-60, 125-126, 191-192), reporting the requested interval and the valid
interior. -/
def rangeErrMsg (a b lo hi : ℚ) : String :=
  "(" ++ toString a ++ ", " ++ toString b ++
    ") is outside the interpolation range of prediction (" ++
    toString lo ++ ", " ++ toString hi ++ ")"

/-- The interpolation-range check shared verbatim by `cpf_interp_azalt`
(lines 55-60), `cpf_interp_xyz_times` (lines 119-126) and `cpf_interp_xyz`
(lines 187-192): with `t_start_interp = Time(ts_utc_cpf[4])` and
`t_end_interp = Time(ts_utc_cpf[-5])`, raise `ValueError` when
`t_start < t_start_interp or t_end > t_end_interp`.  Instants are modelled
as rationals on a common time scale. -/
def cpf_range_check (ts_utc_cpf : List ℚ) (t_start t_end : ℚ) : Except PyErr Unit :=
  let t_start_interp := ts_utc_cpf.getD 4 0
  let t_end_interp := ts_utc_cpf.getD (ts_utc_cpf.length - 5) 0
  if t_start < t_start_interp ∨ t_end > t_end_interp then
    .error (.valueError (rangeErrMsg t_start t_end t_start_interp t_end_interp))
  else .ok ()

/-- The range check as instantiated by `cpf_interp_xyz_times` (lines
119-126), which takes `t_start = Time(times[0])` and
`t_end = Time(times[-1])`. -/
def cpf_xyz_times_check (ts_utc_cpf times : List ℚ) : Except PyErr Unit :=
  cpf_range_check ts_utc_cpf (times.headD 0) (times.getLastD 0)

/-- Search of the leap-second boundary
(`np.diff(leap_second_cpf).nonzero()[0][0] + 1`, line 74): one plus the
first index at which consecutive flags differ; `none` models the
`IndexError` when all flags are equal. -/
def leapBoundary (leap : List ℤ) : Option ℕ :=
  ((List.range (leap.length - 1)).find?
    (fun i => decide (leap.getD (i+1) 0 - leap.getD i 0 ≠ 0))).map (· + 1)

/-- Leap-second offsets assigned to the query instants
(`cpf_interpolate.py` lines 67-83): zero everywhere unless the ephemeris
carries a non-zero flag, in which case the first flag transition gives the
boundary index, its flag value and its MJD day; if some query instant falls
on that day, every query from the first such instant onward gets the
boundary flag value. -/
def querysLeap (leap_cpf mjd_cpf ts_mjd : List ℤ) : Except PyErr (List ℤ) :=
  if leap_cpf.any (fun v => decide (v ≠ 0)) then
    match leapBoundary leap_cpf with
    | none => .error .indexError
    | some b =>
      let value := leap_cpf.getD b 0
      let mjd_cpf_boundary := mjd_cpf.getD b 0
      if ts_mjd.any (fun d => decide (d = mjd_cpf_boundary)) then
        let leap_index := ts_mjd.findIdx (fun d => decide (d = mjd_cpf_boundary))
        .ok ((List.range ts_mjd.length).map (fun j => if leap_index ≤ j then value else 0))
      else .ok (List.replicate ts_mjd.length 0)
  else .ok (List.replicate ts_mjd.length 0)

/-- `np.median` on a list of integers: middle element of the sorted list for
odd length, mean of the two middle elements for even length. -/
def medianZ (l : List ℤ) : ℚ :=
  let s := l.mergeSort (fun a b => decide (a ≤ b))
  if s.length % 2 = 1 then (s.getD (s.length / 2) 0 : ℚ)
  else ((s.getD (s.length / 2 - 1) 0 : ℚ) + (s.getD (s.length / 2) 0 : ℚ)) / 2

/-- Quasi-MJD axis (`cpf_interpolate.py` lines 85-86):
`(mjd - ref) + (sod + leap)/86400` elementwise. -/
def quasiAxis (mjd : List ℤ) (sod : List ℚ) (leap : List ℤ) (ref : ℚ) : List ℚ :=
  (List.range mjd.length).map (fun j =>
    ((mjd.getD j 0 : ℚ) - ref) + (sod.getD j 0 + (leap.getD j 0 : ℚ)) / 86400)

/-- Ephemeris arrays of a CPF table: integer MJD, seconds of day,
leap-second flags and Cartesian positions, parallel lists. -/
structure CpfEph where
  mjd : List ℤ
  sod : List ℚ
  leap : List ℤ
  pos : List Vec3
deriving DecidableEq

/-- The pair of quasi-MJD axes built by `cpf_interp_azalt` lines 69-71 and
85-86: query axis and ephemeris axis, both referred to the single reference
day `np.median(ts_mjd_cpf)`. -/
def cpfAxes (eph : CpfEph) (ts_mjd : List ℤ) (ts_sod : List ℚ) (ls : List ℤ) :
    List ℚ × List ℚ :=
  (quasiAxis ts_mjd ts_sod ls (medianZ eph.mjd),
   quasiAxis eph.mjd eph.sod eph.leap (medianZ eph.mjd))

/-- Station specification handed to the astropy frame collaborator:
`EarthLocation.from_geocentric(x, y, z)` or
`EarthLocation.from_geodetic(lon, lat, height)`. -/
inductive Site where
  | geocentric (x y z : ℚ)
  | geodetic (lon lat height : ℚ)
deriving DecidableEq

/-- `itrs2horizon` (`cpf_interpolate.py` lines 274-306).  The astropy
transform chain is the abstract collaborator `H` mapping a site, the epoch
list and the ITRS positions to `(az, alt, range)`.  The function body only
dispatches on `coord_type`: `geocentric` unpacks `x, y, z`, `geodetic`
unpacks `lat, lon, height` and passes `(lon, lat, height)` on, and any other
string leaves the local variable `site` unassigned, so the subsequent read
raises `UnboundLocalError` - there is no `else` branch. -/
def itrs2horizon (H : Site → List ℚ → List Vec3 → List ℚ × List ℚ × List ℚ)
    (station : Vec3) (ts : List ℚ) (positions : List Vec3) (coord_type : String) :
    Except PyErr (List ℚ × List ℚ × List ℚ) :=
  if coord_type = "geocentric" then
    .ok (H (.geocentric station.1 station.2.1 station.2.2) ts positions)
  else if coord_type = "geodetic" then
    .ok (H (.geodetic station.2.1 station.1 station.2.2) ts positions)
  else .error (.unboundLocal "site")

/-- `scipy.constants.speed_of_light` in m/s. -/
def speed_of_light : ℚ := 299792458

/-- Result of `cpf_interp_azalt` (omitting the echoed `ts_isot`, `ts_mjd`,
`ts_sod` inputs): the `geometric` tuple `(az, alt, r, tof1)` or the
`apparent` tuple `(az_trans, alt_trans, delta_az, delta_alt, r_trans, tof2)`. -/
inductive AzAltOut where
  | geometric (az alt r tof1 : List ℚ)
  | apparent (az_trans alt_trans delta_az delta_alt r_trans tof2 : List ℚ)
deriving DecidableEq

/-- Core of `cpf_interp_azalt` (`cpf_interpolate.py` lines 67-114), after
the query instants have been generated and converted: inputs are the
ephemeris arrays, the query epochs `ts` with their integer MJD `ts_mjd` and
seconds-of-day `ts_sod`, the light-time mode, the station coordinates with
their type string, and the astropy collaborator `H`.  The preceding range
check (lines 55-60) is `cpf_range_check` and the query generation (line 62)
is `t_list`, modelled separately. -/
def cpf_interp_azalt (eph : CpfEph) (ts : List ℚ) (ts_mjd : List ℤ) (ts_sod : List ℚ)
    (mode : String) (station : Vec3) (coord_type : String)
    (H : Site → List ℚ → List Vec3 → List ℚ × List ℚ × List ℚ) :
    Except PyErr AzAltOut := do
  let leap_second ← querysLeap eph.leap eph.mjd ts_mjd
  let (ts_quasi_mjd, ts_quasi_mjd_cpf) := cpfAxes eph ts_mjd ts_sod leap_second
  let positions ← interp_ephem ts_quasi_mjd ts_quasi_mjd_cpf eph.pos
  let (az, alt, r) ← itrs2horizon H station ts positions coord_type
  if mode = "geometric" then
    return .geometric az alt r (r.map (fun v => 2 * v / speed_of_light))
  else if mode = "apparent" then
    let tau := r.map (fun v => v / speed_of_light)
    let ts_quasi_mjd_trans :=
      quasiAxis ts_mjd (List.zipWith (· + ·) ts_sod tau) leap_second (medianZ eph.mjd)
    let ts_quasi_mjd_recei :=
      quasiAxis ts_mjd (List.zipWith (· - ·) ts_sod tau) leap_second (medianZ eph.mjd)
    let positions_trans ← interp_ephem ts_quasi_mjd_trans ts_quasi_mjd_cpf eph.pos
    let positions_recei ← interp_ephem ts_quasi_mjd_recei ts_quasi_mjd_cpf eph.pos
    let (az_trans, alt_trans, r_trans) ← itrs2horizon H station ts positions_trans coord_type
    let horRecei ← itrs2horizon H station ts positions_recei coord_type
    return .apparent az_trans alt_trans
      (List.zipWith (· - ·) horRecei.1 az_trans)
      (List.zipWith (· - ·) horRecei.2.1 alt_trans)
      r_trans (r_trans.map (fun v => 2 * v / speed_of_light))
  else .error (.exceptionMsg "Mode must be geometric or apparent.")

/-- `np.around` on a rational: round half to even. -/
def roundHalfEven (x : ℚ) : ℤ :=
  let f := ⌊x⌋
  let r := x - (f : ℚ)
  if r < 1/2 then f else if 1/2 < r then f + 1 else if f % 2 = 0 then f else f + 1

/-- `np.arange(start, stop, step)` for a positive rational step:
`start + k*step` for `0 ≤ k < ⌈(stop - start)/step⌉`. -/
def arangeQ (start stop step : ℚ) : List ℚ :=
  (List.range (⌈(stop - start) / step⌉).toNat).map (fun k : ℕ => start + (k : ℚ) * step)

/-- `t_list` (`cpf_interpolate.py` lines 352-367): round the span to whole
seconds with `np.around` and generate `t_start + np.arange(0, dt + t_step,
t_step)`.  Instants are rationals measured in seconds. -/
def t_list (t_start t_end t_step : ℚ) : List ℚ :=
  let dt : ℚ := (roundHalfEven (t_end - t_start) : ℤ)
  (arangeQ 0 (dt + t_step) t_step).map (fun s => t_start + s)

/-- Indices at which a boolean series changes value:
`np.diff(sat_above_horizon).nonzero()[0]` (line 397). -/
def changes (sat : List Bool) : List ℕ :=
  (List.range (sat.length - 1)).filter (fun i => sat.getD i false != sat.getD (i+1) false)

/-- Node list of `next_pass_horizon` lines 407-410: prepend index 0 when the
series is above the cutoff at the first change node, then append the last
index when the node count is odd. -/
def passNodes (sat : List Bool) : List ℕ :=
  let nodes := changes sat
  let nodes := if sat.getD (nodes.headD 0) false then 0 :: nodes else nodes
  if nodes.length % 2 ≠ 0 then nodes ++ [sat.length - 1] else nodes

/-- Consecutive pairing `reshape(len(nodes) // 2, 2)` (line 413). -/
def pairUp : List α → List (α × α)
  | a :: b :: rest => (a, b) :: pairUp rest
  | _ => []

/-- Numpy boolean-mask selection `seconds[mask]`. -/
def maskSelect (seconds : List ℚ) (mask : List Bool) : List ℚ :=
  ((seconds.zip mask).filter (fun p => p.2)).map (fun p => p.1)

/-- Refinement of one coarse `(rise, set)` pair (`cpf_interpolate.py` lines
414-435): re-sample the elevation at 1-second steps over
`[node, node + seconds[-1]]` (with `seconds = np.arange(t_step + 1)`), take
`seconds[above][0]` for the rise, and for the set take `seconds[above][0]`
when the final fine sample is above the cutoff and `seconds[above][-1]`
otherwise.  The full prediction pipeline evaluated by the inner
`cpf_interp_azalt` calls is abstracted by the elevation function `altAt`;
empty boolean selections raise `IndexError`. -/
def refinePass (altAt : ℚ → ℚ) (t_step cutoff : ℚ) (b : ℚ × ℚ) : Except PyErr (ℚ × ℚ) :=
  let seconds := arangeQ 0 (t_step + 1) 1
  let lastSec := seconds.getLastD 0
  let riseAbove := (t_list b.1 (b.1 + lastSec) 1).map (fun x => decide (cutoff < altAt x))
  match (maskSelect seconds riseAbove).head? with
  | none => .error .indexError
  | some pr =>
    let setAbove := (t_list b.2 (b.2 + lastSec) 1).map (fun x => decide (cutoff < altAt x))
    let sel := maskSelect seconds setAbove
    if setAbove.getLastD false then
      match sel.head? with
      | none => .error .indexError
      | some ps => .ok (b.1 + pr, b.2 + ps)
    else
      match sel.getLast? with
      | none => .error .indexError
      | some ps => .ok (b.1 + pr, b.2 + ps)

/-- The refinement loop of `next_pass_horizon` (lines 417-435), one refined
pass per coarse boundary pair, aborting on the first exception. -/
def refineAll (altAt : ℚ → ℚ) (t_step cutoff : ℚ) :
    List (ℚ × ℚ) → Except PyErr (List (ℚ × ℚ))
  | [] => .ok []
  | b :: rest => do
    let p ← refinePass altAt t_step cutoff b
    let ps ← refineAll altAt t_step cutoff rest
    .ok (p :: ps)

/-- `next_pass_horizon` (`cpf_interpolate.py` lines 370-436).  The coarse
elevation series produced by the inner geometric `cpf_interp_azalt` call is
`altAt` sampled on `t_list t_start t_end t_step`; passes are pairs of
instants (rationals in seconds). -/
def next_pass_horizon (altAt : ℚ → ℚ) (t_start t_end t_step cutoff : ℚ) :
    Except PyErr (List (ℚ × ℚ)) :=
  let t := t_list t_start t_end t_step
  let sat := t.map (fun x => decide (cutoff < altAt x))
  if changes sat = [] then
    if sat.getD 0 false then .ok [(t_start, t_end)] else .ok []
  else
    refineAll altAt t_step cutoff (pairUp ((passNodes sat).map (fun i => t.getD i 0)))

/-! ## General helper lemmas -/

theorem containsSeq_of_isPrefix (n h : List Char) (hp : n.isPrefixOf h = true) :
    containsSeq n h = true := by
  cases h with
  | nil =>
    cases n with
    | nil => rfl
    | cons a t => simp [List.isPrefixOf] at hp
  | cons c t => simp [containsSeq, hp]

theorem containsSeq_cons (n : List Char) (c : Char) (h : List Char)
    (hc : containsSeq n h = true) : containsSeq n (c :: h) = true := by
  simp [containsSeq, hc]

theorem containsSeq_append_right (n h1 h2 : List Char) (hc : containsSeq n h2 = true) :
    containsSeq n (h1 ++ h2) = true := by
  induction h1 with
  | nil => simpa using hc
  | cons c s ih => exact containsSeq_cons _ _ _ ih

theorem containsSeq_append_left (n h1 h2 : List Char) (hc : containsSeq n h1 = true) :
    containsSeq n (h1 ++ h2) = true := by
  induction h1 with
  | nil =>
    cases n with
    | nil =>
      cases h2 with
      | nil => rfl
      | cons c t => simp [containsSeq]
    | cons a t => simp [containsSeq] at hc
  | cons c s ih =>
    rw [List.cons_append]
    have hc2 : (n.isPrefixOf (c :: s) || containsSeq n s) = true := hc
    simp only [Bool.or_eq_true] at hc2
    rcases hc2 with hpre | hrest
    · have hp2 : n.isPrefixOf (c :: (s ++ h2)) = true := by
        rcases List.isPrefixOf_iff_prefix.mp hpre with ⟨t, ht⟩
        refine List.isPrefixOf_iff_prefix.mpr ⟨t ++ h2, ?_⟩
        rw [← List.append_assoc, ht, List.cons_append]
      show (n.isPrefixOf (c :: (s ++ h2)) || containsSeq n (s ++ h2)) = true
      rw [hp2, Bool.true_or]
    · exact containsSeq_cons _ _ _ (ih hrest)

theorem containsSeq_refl (n : List Char) : containsSeq n n = true :=
  containsSeq_of_isPrefix _ _ (List.isPrefixOf_iff_prefix.mpr (List.prefix_refl n))

theorem strContains_append_of_right (s t mid : String) (h : strContains t mid = true) :
    strContains (s ++ t) mid = true := by
  unfold strContains at *
  rw [String.data_append]
  exact containsSeq_append_right _ _ _ h

theorem strContains_append_of_left (s t mid : String) (h : strContains s mid = true) :
    strContains (s ++ t) mid = true := by
  unfold strContains at *
  rw [String.data_append]
  exact containsSeq_append_left _ _ _ h

theorem strContains_refl (s : String) : strContains s s = true :=
  containsSeq_refl s.data

/-- The range-check message reports the two requested endpoints and the two
valid-interior endpoints. -/
theorem rangeErrMsg_contains (a b lo hi : ℚ) :
    strContains (rangeErrMsg a b lo hi) (toString a) = true ∧
    strContains (rangeErrMsg a b lo hi) (toString b) = true ∧
    strContains (rangeErrMsg a b lo hi) (toString lo) = true ∧
    strContains (rangeErrMsg a b lo hi) (toString hi) = true := by
  unfold rangeErrMsg
  refine ⟨?_, ?_, ?_, ?_⟩
  · exact strContains_append_of_left _ _ _ (strContains_append_of_left _ _ _
      (strContains_append_of_left _ _ _ (strContains_append_of_left _ _ _
      (strContains_append_of_left _ _ _ (strContains_append_of_left _ _ _
      (strContains_append_of_left _ _ _ (strContains_append_of_right _ _ _
      (strContains_refl _))))))))
  · exact strContains_append_of_left _ _ _ (strContains_append_of_left _ _ _
      (strContains_append_of_left _ _ _ (strContains_append_of_left _ _ _
      (strContains_append_of_left _ _ _ (strContains_append_of_right _ _ _
      (strContains_refl _))))))
  · exact strContains_append_of_left _ _ _ (strContains_append_of_left _ _ _
      (strContains_append_of_left _ _ _ (strContains_append_of_right _ _ _
      (strContains_refl _))))
  · exact strContains_append_of_left _ _ _ (strContains_append_of_right _ _ _
      (strContains_refl _))

/-! ## C1: interpolation-range acceptance -/

/-- C1 (amended): the range check of `cpf_interp_azalt`, `cpf_interp_xyz`
and `cpf_interp_xyz_times` compares only the requested endpoints against the
CLOSED interval from the 5th ephemeris sample time to the 5th-from-last
sample time: a request whose start is before the 5th sample time or whose
end is after the 5th-from-last raises a range error reporting both the
requested interval and the valid interior; a request whose endpoints lie in
the closed interval - including exactly at the boundary timestamps - raises
no range error; `cpf_interp_xyz_times` applies the same check to the first
and last explicit time. -/
theorem range_check_closed_interval (ts_utc_cpf : List ℚ) (t_start t_end : ℚ) :
    (ts_utc_cpf.getD 4 0 ≤ t_start →
      t_end ≤ ts_utc_cpf.getD (ts_utc_cpf.length - 5) 0 →
      cpf_range_check ts_utc_cpf t_start t_end = .ok ()) ∧
    (t_start < ts_utc_cpf.getD 4 0 ∨ ts_utc_cpf.getD (ts_utc_cpf.length - 5) 0 < t_end →
      ∃ msg, cpf_range_check ts_utc_cpf t_start t_end = .error (.valueError msg) ∧
        strContains msg (toString t_start) = true ∧
        strContains msg (toString t_end) = true ∧
        strContains msg (toString (ts_utc_cpf.getD 4 0)) = true ∧
        strContains msg (toString (ts_utc_cpf.getD (ts_utc_cpf.length - 5) 0)) = true) ∧
    (∀ times : List ℚ, cpf_xyz_times_check ts_utc_cpf times =
      cpf_range_check ts_utc_cpf (times.headD 0) (times.getLastD 0)) := by
  refine ⟨fun h1 h2 => ?_, fun h => ?_, fun _ => rfl⟩
  · unfold cpf_range_check
    rw [if_neg]
    push_neg
    exact ⟨h1, h2⟩
  · unfold cpf_range_check
    rw [if_pos (by tauto)]
    exact ⟨_, rfl, (rangeErrMsg_contains _ _ _ _).1, (rangeErrMsg_contains _ _ _ _).2.1,
      (rangeErrMsg_contains _ _ _ _).2.2.1, (rangeErrMsg_contains _ _ _ _).2.2.2⟩

/-- Witness for C1's amended theorem: with ephemeris times `0, 1, ..., 14`,
the valid interior is `[4, 10]` and a request exactly at `(4, 10)` passes
the check. -/
theorem range_check_closed_interval_witness :
    cpf_range_check [0,1,2,3,4,5,6,7,8,9,10,11,12,13,14] 4 10 = .ok () :=
  (range_check_closed_interval [0,1,2,3,4,5,6,7,8,9,10,11,12,13,14] 4 10).1
    (le_refl (4:ℚ)) (le_refl (10:ℚ))

/-- Counterexample to C1 as stated: the claim requires a request AT the
boundary timestamps (here the 5th sample time 4 and the 5th-from-last
sample time 10) to raise a range error, but the code accepts it. -/
theorem range_check_boundary_accepted :
    cpf_range_check [0,1,2,3,4,5,6,7,8,9,10,11,12,13,14] 4 10 = .ok () ∧
    ([0,1,2,3,4,5,6,7,8,9,10,11,12,13,14] : List ℚ).getD 4 0 = 4 ∧
    ([0,1,2,3,4,5,6,7,8,9,10,11,12,13,14] : List ℚ).getD (15 - 5) 0 = 10 := by
  refine ⟨?_, rfl, rfl⟩
  unfold cpf_range_check
  rw [if_neg]
  push_neg
  exact ⟨le_refl _, le_refl _⟩

/-! ## C8: mode and coordinate-type validation -/

/-- C8 (amended): a call with a mode string other than `geometric` or
`apparent` (and a valid coordinate type) is rejected with a fatal error
whose explicit message enumerates the two valid modes; a station
coordinate-type string other than `geocentric` or `geodetic` is rejected
with a fatal unbound-local failure, but its message does NOT enumerate the
valid values; neither string has a silent default. -/
theorem mode_and_coord_validation
    (eph : CpfEph) (ts : List ℚ) (ts_mjd : List ℤ) (ts_sod : List ℚ)
    (mode : String) (station : Vec3) (coord_type : String)
    (H : Site → List ℚ → List Vec3 → List ℚ × List ℚ × List ℚ)
    (ls : List ℤ) (P : List Vec3)
    (h1 : querysLeap eph.leap eph.mjd ts_mjd = .ok ls)
    (h2 : interp_ephem (cpfAxes eph ts_mjd ts_sod ls).1 (cpfAxes eph ts_mjd ts_sod ls).2
      eph.pos = .ok P)
    (hc : coord_type = "geocentric" ∨ coord_type = "geodetic")
    (hm1 : mode ≠ "geometric") (hm2 : mode ≠ "apparent") :
    (cpf_interp_azalt eph ts ts_mjd ts_sod mode station coord_type H =
        .error (.exceptionMsg "Mode must be geometric or apparent.") ∧
      strContains (PyErr.exceptionMsg "Mode must be geometric or apparent.").message
        "geometric" = true ∧
      strContains (PyErr.exceptionMsg "Mode must be geometric or apparent.").message
        "apparent" = true) ∧
    (∀ ct : String, ct ≠ "geocentric" → ct ≠ "geodetic" → ∀ positions : List Vec3,
      itrs2horizon H station ts positions ct = .error (.unboundLocal "site") ∧
      strContains (PyErr.unboundLocal "site").message "geocentric" = false ∧
      strContains (PyErr.unboundLocal "site").message "geodetic" = false) := by
  constructor
  · refine ⟨?_, by decide, by decide⟩
    unfold cpf_interp_azalt
    rw [h1]
    simp only [Bind.bind, Except.bind]
    rw [h2]
    rcases hc with hc | hc <;> subst hc <;> simp [itrs2horizon, hm1, hm2]
  · intro ct hct1 hct2 positions
    refine ⟨?_, by decide, by decide⟩
    unfold itrs2horizon
    rw [if_neg hct1, if_neg hct2]

/-- Witness for C8's amended theorem: a concrete call with the unknown mode
string `average` and valid coordinate type is rejected with the enumerating
mode error. -/
theorem mode_and_coord_validation_witness :
    cpf_interp_azalt ⟨[], [], [], []⟩ [] [] [] "average" (0, 0, 0) "geocentric"
      (fun _ _ _ => ([], [], [])) =
      .error (.exceptionMsg "Mode must be geometric or apparent.") :=
  (mode_and_coord_validation ⟨[], [], [], []⟩ [] [] [] "average" (0, 0, 0) "geocentric"
    (fun _ _ _ => ([], [], [])) [] [] rfl rfl (Or.inl rfl)
    (by decide) (by decide)).1.1

/-- Counterexample to C8 as stated: an unknown coordinate-type string is
rejected, but with an unbound-local failure whose message does not mention
either valid value, contradicting the claimed enumerating message. -/
theorem coord_type_error_no_enumeration :
    itrs2horizon (fun _ _ _ => ([], [], [])) (0, 0, 0) [] [] "spherical" =
      .error (.unboundLocal "site") ∧
    strContains (PyErr.unboundLocal "site").message "geocentric" = false ∧
    strContains (PyErr.unboundLocal "site").message "geodetic" = false := by
  refine ⟨?_, by decide, by decide⟩
  unfold itrs2horizon
  rw [if_neg (by decide), if_neg (by decide)]

/-! ## C9: quasi-day axes with a common reference day -/

theorem quasiAxis_getD (mjd : List ℤ) (sod : List ℚ) (leap : List ℤ) (ref : ℚ)
    (j : ℕ) (hj : j < mjd.length) :
    (quasiAxis mjd sod leap ref).getD j 0 =
      ((mjd.getD j 0 : ℚ) - ref) + (sod.getD j 0 + (leap.getD j 0 : ℚ)) / 86400 := by
  unfold quasiAxis
  rw [List.getD_eq_getElem?_getD, List.getElem?_map, List.getElem?_range hj]
  rfl

/-- C9: both quasi-day axes built by `cpf_interp_azalt` are
`(mjd_day - reference_day) + (second_of_day + leap_second_offset)/86400`
elementwise, with the single reference day `medianZ eph.mjd` shared by the
query axis and the ephemeris axis; the reference day is the median of the
ephemeris MJD days (in particular it depends only on the multiset of days). -/
theorem quasi_day_axes (eph : CpfEph) (ts_mjd : List ℤ) (ts_sod : List ℚ) (ls : List ℤ) :
    (∀ j < ts_mjd.length, (cpfAxes eph ts_mjd ts_sod ls).1.getD j 0 =
      ((ts_mjd.getD j 0 : ℚ) - medianZ eph.mjd) +
        (ts_sod.getD j 0 + (ls.getD j 0 : ℚ)) / 86400) ∧
    (∀ j < eph.mjd.length, (cpfAxes eph ts_mjd ts_sod ls).2.getD j 0 =
      ((eph.mjd.getD j 0 : ℚ) - medianZ eph.mjd) +
        (eph.sod.getD j 0 + (eph.leap.getD j 0 : ℚ)) / 86400) ∧
    (∀ l2 : List ℤ, eph.mjd.Perm l2 → medianZ eph.mjd = medianZ l2) := by
  refine ⟨fun j hj => quasiAxis_getD _ _ _ _ j hj,
          fun j hj => quasiAxis_getD _ _ _ _ j hj,
          fun l2 hp => ?_⟩
  unfold medianZ
  have hs : eph.mjd.mergeSort (fun a b => decide (a ≤ b)) =
      l2.mergeSort (fun a b => decide (a ≤ b)) := by
    apply List.eq_of_perm_of_sorted (r := (· ≤ ·))
    · exact ((List.mergeSort_perm eph.mjd _).trans hp).trans (List.mergeSort_perm l2 _).symm
    · exact List.sorted_mergeSort' eph.mjd
    · exact List.sorted_mergeSort' l2
  rw [hs]

/-- Witness for C9: a concrete ephemeris over days `57753, 57754, 57755`
(median `57754`) and one query at noon of day `57754`. -/
theorem quasi_day_axes_witness :
    (cpfAxes ⟨[57753, 57754, 57755], [0, 0, 0], [0, 0, 0],
        [(0,0,0), (0,0,0), (0,0,0)]⟩ [57754] [43200] [0]).1.getD 0 0 =
      ((57754 : ℚ) - medianZ [57753, 57754, 57755]) + (43200 + 0) / 86400 :=
  (quasi_day_axes ⟨[57753, 57754, 57755], [0, 0, 0], [0, 0, 0],
    [(0,0,0), (0,0,0), (0,0,0)]⟩ [57754] [43200] [0]).1 0 (by decide)

/-! ## C3: leap-second boundary handling -/

theorem find_range_min {m : ℕ} : ∀ {p : ℕ → Bool} {i : ℕ},
    (List.range m).find? p = some i → i < m ∧ p i = true ∧ ∀ j < i, p j = false := by
  induction m with
  | zero => intro p i h; simp [List.range_zero] at h
  | succ m ih =>
    intro p i h
    rw [List.range_succ, List.find?_append] at h
    cases hf : (List.range m).find? p with
    | some a =>
      rw [hf] at h
      simp only [Option.or] at h
      obtain rfl : a = i := Option.some.inj h
      obtain ⟨h1, h2, h3⟩ := ih hf
      exact ⟨Nat.lt_succ_of_lt h1, h2, h3⟩
    | none =>
      rw [hf] at h
      simp only [Option.or] at h
      have hall : ∀ j < m, p j = false := by
        intro j hj
        have := List.find?_eq_none.mp hf j (List.mem_range.mpr hj)
        simpa using this
      cases hm : p m with
      | true =>
        have : i = m := (Option.some.inj (by simpa only [List.find?, hm] using h)).symm
        subst this
        exact ⟨Nat.lt_succ_self _, hm, hall⟩
      | false =>
        simp only [List.find?, hm] at h
        exact Option.noConfusion h

/-- C3: if every ephemeris leap flag is zero, every query leap offset is
zero.  Otherwise, when the flag series has a transition, the boundary used
is one plus the FIRST index at which consecutive flags differ (any later
transition is ignored); if some query instant has the boundary's MJD day,
the offsets are the boundary's flag value from the first such query index
onward and zero before, and if no query instant has that day the offsets
are all zero. -/
theorem leap_second_handling (leap_cpf mjd_cpf ts_mjd : List ℤ) :
    ((∀ v ∈ leap_cpf, v = 0) →
      querysLeap leap_cpf mjd_cpf ts_mjd = .ok (List.replicate ts_mjd.length 0)) ∧
    (∀ b, leapBoundary leap_cpf = some b →
      1 ≤ b ∧ b ≤ leap_cpf.length - 1 ∧
      leap_cpf.getD b 0 ≠ leap_cpf.getD (b-1) 0 ∧
      ∀ i, 1 ≤ i → i < b → leap_cpf.getD i 0 = leap_cpf.getD (i-1) 0) ∧
    (∀ v ∈ leap_cpf, v ≠ 0 → ∀ b, leapBoundary leap_cpf = some b →
      ((∃ j < ts_mjd.length, ts_mjd.getD j 0 = mjd_cpf.getD b 0) →
        (ts_mjd.findIdx (fun d => decide (d = mjd_cpf.getD b 0)) < ts_mjd.length ∧
         ts_mjd.getD (ts_mjd.findIdx (fun d => decide (d = mjd_cpf.getD b 0))) 0 =
           mjd_cpf.getD b 0 ∧
         (∀ j < ts_mjd.findIdx (fun d => decide (d = mjd_cpf.getD b 0)),
           ts_mjd.getD j 0 ≠ mjd_cpf.getD b 0) ∧
         querysLeap leap_cpf mjd_cpf ts_mjd = .ok ((List.range ts_mjd.length).map
           (fun j => if ts_mjd.findIdx (fun d => decide (d = mjd_cpf.getD b 0)) ≤ j
             then leap_cpf.getD b 0 else 0)))) ∧
      ((∀ j < ts_mjd.length, ts_mjd.getD j 0 ≠ mjd_cpf.getD b 0) →
        querysLeap leap_cpf mjd_cpf ts_mjd = .ok (List.replicate ts_mjd.length 0))) := by
  refine ⟨fun h0 => ?_, fun b hb => ?_, fun v hv hvne b hb => ⟨fun hhit => ?_, fun hmiss => ?_⟩⟩
  · unfold querysLeap
    rw [if_neg]
    intro hany
    obtain ⟨x, hx, hpx⟩ := List.any_eq_true.mp hany
    have hx0 : x ≠ 0 := by simpa using hpx
    exact hx0 (h0 x hx)
  · unfold leapBoundary at hb
    cases hf : (List.range (leap_cpf.length - 1)).find?
        (fun i => decide (leap_cpf.getD (i+1) 0 - leap_cpf.getD i 0 ≠ 0)) with
    | none => rw [hf] at hb; simp at hb
    | some a =>
      rw [hf] at hb
      simp only [Option.map] at hb
      have hb2 : a + 1 = b := Option.some.inj hb
      subst hb2
      obtain ⟨ha1, ha2, ha3⟩ := find_range_min hf
      refine ⟨Nat.le_add_left 1 a, by omega, ?_, ?_⟩
      · have : leap_cpf.getD (a+1) 0 - leap_cpf.getD a 0 ≠ 0 := by simpa using ha2
        simpa [Nat.add_sub_cancel] using sub_ne_zero.mp this
      · intro i hi1 hi2
        have hia : i - 1 < a := by omega
        have := ha3 (i-1) hia
        have hz : leap_cpf.getD (i-1+1) 0 - leap_cpf.getD (i-1) 0 = 0 := by
          simpa using this
        have : i - 1 + 1 = i := by omega
        rw [this] at hz
        exact sub_eq_zero.mp hz
  · have hany : leap_cpf.any (fun v => decide (v ≠ 0)) = true :=
      List.any_eq_true.mpr ⟨v, hv, by simpa using hvne⟩
    have hanyd : ts_mjd.any (fun d => decide (d = mjd_cpf.getD b 0)) = true := by
      obtain ⟨j, hj, hjd⟩ := hhit
      refine List.any_eq_true.mpr ⟨ts_mjd.getD j 0, ?_, by simpa using hjd⟩
      rw [List.getD_eq_getElem?_getD]
      cases hg : ts_mjd[j]? with
      | none => exact absurd (List.getElem?_eq_none_iff.mp hg) (by omega)
      | some x => simpa [hg] using List.getElem?_mem hg
    have hfi : ts_mjd.findIdx (fun d => decide (d = mjd_cpf.getD b 0)) < ts_mjd.length := by
      apply List.findIdx_lt_length_of_exists
      obtain ⟨x, hx, hpx⟩ := List.any_eq_true.mp hanyd
      exact ⟨x, hx, hpx⟩
    refine ⟨hfi, ?_, ?_, ?_⟩
    · have := @List.findIdx_getElem _ (fun d => decide (d = mjd_cpf.getD b 0)) ts_mjd hfi
      rw [List.getD_eq_getElem?_getD, List.getElem?_eq_getElem hfi]
      simpa using this
    · intro j hj
      have := List.not_of_lt_findIdx hj
      have hjlen : j < ts_mjd.length := lt_trans hj hfi
      rw [List.getD_eq_getElem?_getD, List.getElem?_eq_getElem hjlen]
      simpa using this
    · unfold querysLeap
      rw [if_pos hany, hb]
      simp only [Option.map]
      rw [if_pos hanyd]
  · have hany : leap_cpf.any (fun v => decide (v ≠ 0)) = true :=
      List.any_eq_true.mpr ⟨v, hv, by simpa using hvne⟩
    have hanyd : ¬ ts_mjd.any (fun d => decide (d = mjd_cpf.getD b 0)) = true := by
      intro hc
      obtain ⟨x, hx, hpx⟩ := List.any_eq_true.mp hc
      obtain ⟨j, hjl, hjx⟩ := List.mem_iff_getElem.mp hx
      refine hmiss j hjl ?_
      rw [List.getD_eq_getElem?_getD, List.getElem?_eq_getElem hjl, hjx]
      exact Option.getD_some ▸ (by simpa using hpx)
    unfold querysLeap
    rw [if_pos hany, hb]
    simp only [Option.map]
    rw [if_neg hanyd]

/-- Witness for C3: flags `[0, 1]` give boundary index 1 with value 1 on day
`57754`; queries on days `[57753, 57754, 57754]` get offsets `[0, 1, 1]`. -/
theorem leap_second_handling_witness :
    querysLeap [0, 1] [57753, 57754] [57753, 57754, 57754] = .ok [0, 1, 1] := by
  have h := ((leap_second_handling [0, 1] [57753, 57754] [57753, 57754, 57754]).2.2
    1 (by decide) (by decide) 1 rfl).1 ⟨1, by decide, by decide⟩
  rw [h.2.2.2]
  exact congrArg Except.ok (by decide)

/-! ## Interpolation core lemmas -/

theorem sorted_getD_lt (axis : List ℚ) (hs : axis.Sorted (· < ·)) {i j : ℕ}
    (hij : i < j) (hj : j < axis.length) : axis.getD i 0 < axis.getD j 0 := by
  have hi : i < axis.length := lt_trans hij hj
  rw [List.getD_eq_getElem?_getD, List.getD_eq_getElem?_getD,
    List.getElem?_eq_getElem hi, List.getElem?_eq_getElem hj]
  exact List.pairwise_iff_getElem.mp hs i j hi hj hij

theorem sorted_getD_le (axis : List ℚ) (hs : axis.Sorted (· < ·)) {i j : ℕ}
    (hij : i ≤ j) (hj : j < axis.length) : axis.getD i 0 ≤ axis.getD j 0 := by
  rcases Nat.lt_or_ge i j with h | h
  · exact le_of_lt (sorted_getD_lt axis hs h hj)
  · have : i = j := le_antisymm hij h
    rw [this]

theorem find_range_eq {m b : ℕ} {p : ℕ → Bool} (hbm : b < m) (hpb : p b = true)
    (hmin : ∀ j < b, p j = false) : (List.range m).find? p = some b := by
  induction m with
  | zero => omega
  | succ m ih =>
    rw [List.range_succ, List.find?_append]
    rcases Nat.lt_or_ge b m with hb | hb
    · rw [ih hb]
      rfl
    · have hbm2 : b = m := by omega
      subst hbm2
      have hnone : (List.range b).find? p = none :=
        List.find?_eq_none.mpr (fun j hj => by
          simp [hmin j (List.mem_range.mp hj)])
      rw [hnone]
      simp [List.find?, hpb, Option.or]

theorem bracketIdx_eq (axis : List ℚ) (x : ℚ) (b : ℕ)
    (hsort : axis.Sorted (· < ·))
    (hb : b + 1 < axis.length)
    (hle : axis.getD b 0 ≤ x) (hlt : x < axis.getD (b+1) 0) :
    bracketIdx axis x = some b := by
  unfold bracketIdx
  apply find_range_eq (by omega)
  · have h1 : decide (axis.getD b 0 ≤ x) = true := decide_eq_true hle
    have h2 : decide (axis.getD (b+1) 0 ≤ x) = false :=
      decide_eq_false (not_le.mpr hlt)
    rw [h1, h2]
    rfl
  · intro j hj
    have h1 : decide (axis.getD j 0 ≤ x) = true :=
      decide_eq_true (le_trans (sorted_getD_le axis hsort (by omega) (by omega)) hle)
    have h2 : decide (axis.getD (j+1) 0 ≤ x) = true :=
      decide_eq_true (le_trans (sorted_getD_le axis hsort (by omega) (by omega)) hle)
    rw [h1, h2]
    rfl

theorem pySlice_eq {α : Type _} (l : List α) (b : ℕ) (h4 : 4 ≤ b) (h6 : b + 6 ≤ l.length) :
    pySlice l ((b : ℤ) - 4) ((b : ℤ) + 6) = (l.drop (b - 4)).take 10 := by
  unfold pySlice
  have ha : ¬ ((b : ℤ) - 4 < 0) := by omega
  have hb2 : ¬ ((b : ℤ) + 6 < 0) := by omega
  rw [if_neg ha, if_neg hb2]
  have h1 : (min ((b : ℤ) - 4) (l.length : ℤ)).toNat = b - 4 := by omega
  have h2 : (min ((b : ℤ) + 6) (l.length : ℤ)).toNat = b + 6 := by omega
  rw [h1, h2, List.drop_take]
  have h10 : b + 6 - (b - 4) = 10 := by omega
  rw [h10]

theorem window_getD (l : List ℚ) (b i : ℕ) (hi : i < 10) (h6 : b + 6 ≤ l.length) (h4 : 4 ≤ b) :
    ((l.drop (b - 4)).take 10).getD i 0 = l.getD (b - 4 + i) 0 := by
  rw [List.getD_eq_getElem?_getD, List.getD_eq_getElem?_getD, List.getElem?_take,
    if_pos hi, List.getElem?_drop]

theorem window_length (l : List ℚ) (b : ℕ) (h4 : 4 ≤ b) (h6 : b + 6 ≤ l.length) :
    ((l.drop (b - 4)).take 10).length = 10 := by
  rw [List.length_take, List.length_drop]
  omega

theorem lagrangeWeight_at_node (xs : List ℚ) (k i : ℕ) (hk : k < xs.length)
    (hi : i < xs.length)
    (hnd : ∀ a b : ℕ, a < xs.length → b < xs.length → a ≠ b → xs.getD a 0 ≠ xs.getD b 0) :
    lagrangeWeight xs i (xs.getD k 0) = if i = k then 1 else 0 := by
  unfold lagrangeWeight
  by_cases hik : i = k
  · subst hik
    rw [if_pos rfl]
    apply Finset.prod_eq_one
    intro j hj
    obtain ⟨hji, hjr⟩ := Finset.mem_erase.mp hj
    exact div_self (sub_ne_zero.mpr (hnd i j hi (Finset.mem_range.mp hjr) (Ne.symm hji)))
  · rw [if_neg hik]
    apply Finset.prod_eq_zero (i := k)
    · exact Finset.mem_erase.mpr ⟨fun h => hik h.symm, Finset.mem_range.mpr hk⟩
    · rw [sub_self, zero_div]

theorem lagrangeEval_at_node (xs ys : List ℚ) (k : ℕ) (hk : k < xs.length)
    (hnd : ∀ a b : ℕ, a < xs.length → b < xs.length → a ≠ b → xs.getD a 0 ≠ xs.getD b 0) :
    lagrangeEval xs ys (xs.getD k 0) = ys.getD k 0 := by
  unfold lagrangeEval
  rw [Finset.sum_eq_single k]
  · rw [lagrangeWeight_at_node xs k k hk hk hnd, if_pos rfl, mul_one]
  · intro i hi hik
    rw [lagrangeWeight_at_node xs k i hk (Finset.mem_range.mp hi) hnd, if_neg hik, mul_zero]
  · intro hk2
    exact absurd (Finset.mem_range.mpr hk) hk2

theorem lagrangeEval_eq_interpolate (xs ys : List ℚ) (x : ℚ) :
    lagrangeEval xs ys x = Polynomial.eval x
      (Lagrange.interpolate (Finset.range xs.length) (fun i => xs.getD i 0)
        (fun i => ys.getD i 0)) := by
  unfold lagrangeEval lagrangeWeight
  rw [Lagrange.interpolate_apply, Polynomial.eval_finset_sum]
  apply Finset.sum_congr rfl
  intro i _
  rw [Polynomial.eval_mul, Polynomial.eval_C]
  congr 1
  rw [Lagrange.basis, Polynomial.eval_prod]
  apply Finset.prod_congr rfl
  intro j _
  rw [Lagrange.basisDivisor, Polynomial.eval_mul, Polynomial.eval_C, Polynomial.eval_sub,
    Polynomial.eval_X, Polynomial.eval_C, div_eq_mul_inv, mul_comm]

/-- On a sorted list, `dropWhile` with a downward-closed predicate leaves
only elements failing the predicate. -/
theorem dropWhile_all_false {p : ℚ → Bool}
    (hmono : ∀ a b : ℚ, a ≤ b → p b = true → p a = true) :
    ∀ q : List ℚ, q.Sorted (· ≤ ·) → ∀ x ∈ q.dropWhile p, p x = false := by
  intro q
  induction q with
  | nil => intro _ x hx; simp [List.dropWhile] at hx
  | cons a t ih =>
    intro hs x hx
    rw [List.dropWhile] at hx
    cases hpa : p a with
    | true =>
      rw [hpa] at hx
      exact ih (List.sorted_cons.mp hs).2 x hx
    | false =>
      rw [hpa] at hx
      rcases List.mem_cons.mp hx with rfl | hxt
      · exact hpa
      · cases hpx : p x with
        | false => rfl
        | true =>
          exact absurd (hmono a x ((List.sorted_cons.mp hs).1 x hxt) hpx) (by simp [hpa])

/-- The per-window loop of the dense branch, over windows `k, k+1, ...`:
if every query is covered by some window at index at least `k`, the
concatenated per-window results list every query's bracket-window value in
query order. -/
theorem window_flatten_aux (axis : List ℚ) (pos : List Vec3)
    (hsort : axis.Sorted (· < ·)) :
    ∀ (c k : ℕ), k + c = axis.length - 1 →
    ∀ q : List ℚ, q.Sorted (· ≤ ·) →
    (∀ x ∈ q, ∃ i, k ≤ i ∧ i + 1 < axis.length ∧ axis.getD i 0 ≤ x ∧ x < axis.getD (i+1) 0) →
    ((List.range' k c).map (fun i =>
      (windowFilter axis i q).map (fun x =>
        baryEval3 (pySlice axis ((i : ℤ) - 4) ((i : ℤ) + 6))
                  (pySlice pos ((i : ℤ) - 4) ((i : ℤ) + 6)) x))).flatten
      = q.map (densePoint axis pos) := by
  intro c
  induction c with
  | zero =>
    intro k hk q hqs hcov
    cases q with
    | nil => simp
    | cons x t =>
      obtain ⟨i, hki, hi1, _, _⟩ := hcov x (List.mem_cons_self x t)
      omega
  | succ c ih =>
    intro k hk q hqs hcov
    rw [List.range'_succ, List.map_cons, List.flatten_cons]
    set A := q.takeWhile (fun x => decide (x < axis.getD (k+1) 0)) with hA
    set B := q.dropWhile (fun x => decide (x < axis.getD (k+1) 0)) with hB
    have hAB : A ++ B = q := List.takeWhile_append_dropWhile _ _
    have hmemA : ∀ x ∈ A, x < axis.getD (k+1) 0 := by
      intro x hx
      simpa using List.mem_takeWhile_imp hx
    have hmemB : ∀ x ∈ B, axis.getD (k+1) 0 ≤ x := by
      intro x hx
      have := dropWhile_all_false (p := fun x => decide (x < axis.getD (k+1) 0))
        (fun a b hab hpb => by
          simp only [decide_eq_true_eq] at hpb
          exact decide_eq_true (lt_of_le_of_lt hab hpb)) q hqs x hx
      simpa using this
    have hsubA : A.Sublist q := List.takeWhile_sublist _
    have hsubB : B.Sublist q := List.dropWhile_sublist _
    have hmemAq : ∀ x ∈ A, x ∈ q := fun x hx => hsubA.mem hx
    have hmemBq : ∀ x ∈ B, x ∈ q := fun x hx => hsubB.mem hx
    have hk1len : k + 1 < axis.length := by omega
    -- every element of A lies in window k
    have hbrA : ∀ x ∈ A, axis.getD k 0 ≤ x ∧ x < axis.getD (k+1) 0 := by
      intro x hx
      obtain ⟨i, hki, hi1, hle, _⟩ := hcov x (hmemAq x hx)
      exact ⟨le_trans (sorted_getD_le axis hsort hki (by omega)) hle, hmemA x hx⟩
    -- window k filter picks exactly A
    have hfk : windowFilter axis k q = A := by
      unfold windowFilter
      rw [← hAB, List.filter_append]
      have h1 : A.filter
          (fun x => decide (axis.getD k 0 ≤ x) && decide (x < axis.getD (k+1) 0)) = A :=
        List.filter_eq_self.mpr (fun a ha => by
          obtain ⟨ha1, ha2⟩ := hbrA a ha
          rw [decide_eq_true ha1, decide_eq_true ha2]
          rfl)
      have h2 : B.filter
          (fun x => decide (axis.getD k 0 ≤ x) && decide (x < axis.getD (k+1) 0)) = [] :=
        List.filter_eq_nil_iff.mpr (fun a ha => by
          have hge := hmemB a ha
          rw [decide_eq_false (not_lt.mpr hge), Bool.and_false]
          exact Bool.false_ne_true)
      rw [h1, h2, List.append_nil]
    -- later windows ignore A
    have hfB : ∀ i, k + 1 ≤ i → i < axis.length →
        windowFilter axis i q = windowFilter axis i B := by
      intro i hi hilen
      unfold windowFilter
      rw [← hAB, List.filter_append]
      have h1 : A.filter
          (fun x => decide (axis.getD i 0 ≤ x) && decide (x < axis.getD (i+1) 0)) = [] :=
        List.filter_eq_nil_iff.mpr (fun a ha => by
          have hlt : a < axis.getD i 0 :=
            lt_of_lt_of_le (hmemA a ha) (sorted_getD_le axis hsort hi hilen)
          rw [decide_eq_false (not_le.mpr hlt), Bool.false_and]
          exact Bool.false_ne_true)
      rw [h1, List.nil_append]
    have hrest : (List.range' (k+1) c).map (fun i =>
        (windowFilter axis i q).map (fun x =>
          baryEval3 (pySlice axis ((i : ℤ) - 4) ((i : ℤ) + 6))
                    (pySlice pos ((i : ℤ) - 4) ((i : ℤ) + 6)) x))
        = (List.range' (k+1) c).map (fun i =>
        (windowFilter axis i B).map (fun x =>
          baryEval3 (pySlice axis ((i : ℤ) - 4) ((i : ℤ) + 6))
                    (pySlice pos ((i : ℤ) - 4) ((i : ℤ) + 6)) x)) := by
      apply List.map_congr_left
      intro i hi
      obtain ⟨j, hj, rfl⟩ := List.mem_range'.mp hi
      rw [hfB (k + 1 + 1 * j) (by omega) (by omega)]
    have hsB : B.Sorted (· ≤ ·) := hqs.sublist hsubB
    have hcovB : ∀ x ∈ B, ∃ i, k + 1 ≤ i ∧ i + 1 < axis.length ∧
        axis.getD i 0 ≤ x ∧ x < axis.getD (i+1) 0 := by
      intro x hx
      obtain ⟨i, hki, hi1, hle, hlt⟩ := hcov x (hmemBq x hx)
      refine ⟨i, ?_, hi1, hle, hlt⟩
      rcases Nat.lt_or_ge i (k+1) with hik | hik
      · have hik2 : i = k := by omega
        subst hik2
        exact absurd hlt (not_lt.mpr (hmemB x hx))
      · exact hik
    rw [hfk, hrest, ih (k+1) (by omega) B hsB hcovB]
    have hAf : A.map (fun x =>
        baryEval3 (pySlice axis ((k : ℤ) - 4) ((k : ℤ) + 6))
                  (pySlice pos ((k : ℤ) - 4) ((k : ℤ) + 6)) x)
        = A.map (densePoint axis pos) := by
      apply List.map_congr_left
      intro x hx
      obtain ⟨ha1, ha2⟩ := hbrA x hx
      unfold densePoint
      rw [bracketIdx_eq axis x k hsort hk1len ha1 ha2]
    rw [hAf, ← List.map_append, hAB]

theorem getD_map_lt {α β : Type _} (f : α → β) (l : List α) (j : ℕ) (hj : j < l.length)
    (d : β) (d2 : α) : (l.map f).getD j d = f (l.getD j d2) := by
  rw [List.getD_eq_getElem?_getD, List.getElem?_map, List.getElem?_eq_getElem hj,
    List.getD_eq_getElem?_getD, List.getElem?_eq_getElem hj]
  rfl

theorem window_getD2 {α : Type _} (l : List α) (d : α) (b i : ℕ) (hi : i < 10) :
    ((l.drop (b - 4)).take 10).getD i d = l.getD (b - 4 + i) d := by
  rw [List.getD_eq_getElem?_getD, List.getD_eq_getElem?_getD, List.getElem?_take,
    if_pos hi, List.getElem?_drop]

theorem exists_bracket (axis : List ℚ) (x : ℚ) :
    ∀ d i j, j - i = d → i < j → j < axis.length →
    axis.getD i 0 ≤ x → x < axis.getD j 0 →
    ∃ b, i ≤ b ∧ b < j ∧ axis.getD b 0 ≤ x ∧ x < axis.getD (b+1) 0 := by
  intro d
  induction d with
  | zero => intro i j hd hij _ _ _; omega
  | succ d ih =>
    intro i j hd hij hjlen hle hlt
    by_cases hx : x < axis.getD (i+1) 0
    · exact ⟨i, le_refl i, hij, hle, hx⟩
    · have hij2 : i + 1 < j := by
        rcases Nat.lt_or_ge (i+1) j with h | h
        · exact h
        · have : i + 1 = j := by omega
          rw [this] at hx
          exact absurd hlt hx
      obtain ⟨b, hb1, hb2, hb3, hb4⟩ :=
        ih (i+1) j (by omega) hij2 hjlen (not_lt.mp hx) hlt
      exact ⟨b, by omega, hb2, hb3, hb4⟩

theorem interpolate_congr_nodes (s : Finset ℕ) (v v2 r : ℕ → ℚ) (hv : ∀ i ∈ s, v i = v2 i) :
    Lagrange.interpolate s v r = Lagrange.interpolate s v2 r := by
  rw [Lagrange.interpolate_apply, Lagrange.interpolate_apply]
  apply Finset.sum_congr rfl
  intro i hi
  congr 1
  unfold Lagrange.basis
  apply Finset.prod_congr rfl
  intro j hj
  rw [hv i hi, hv j (Finset.mem_of_mem_erase hj)]

theorem interpSparse_eq_map (axis : List ℚ) (pos : List Vec3) :
    ∀ q : List ℚ, (∀ x ∈ q, bracketIdx axis x ≠ none) →
    interpSparse axis pos q = .ok (q.map (interpValue axis pos)) := by
  intro q
  induction q with
  | nil => intro _; rfl
  | cons x t ih =>
    intro h
    have hx := h x (List.mem_cons_self x t)
    show (do
      let v ← interpQuery axis pos x
      let vs ← interpSparse axis pos t
      (.ok (v :: vs) : Except PyErr (List Vec3))) = _
    rw [ih (fun y hy => h y (List.mem_cons_of_mem _ hy))]
    cases hb : bracketIdx axis x with
    | none => exact absurd hb hx
    | some b =>
      unfold interpQuery interpValue
      simp only [hb]
      by_cases hmem : x ∈ axis
      · simp only [if_pos hmem, Bind.bind, Except.bind, List.map_cons]
        rw [hb]
      · simp only [if_neg hmem, Bind.bind, Except.bind, List.map_cons]
        rw [hb]

theorem interpDense_spec (q axis : List ℚ) (pos : List Vec3)
    (hsort : axis.Sorted (· < ·)) (hqs : q.Sorted (· ≤ ·))
    (hcov : ∀ x ∈ q, ∃ i, i + 1 < axis.length ∧ axis.getD i 0 ≤ x ∧ x < axis.getD (i+1) 0)
    (hne : q ≠ []) :
    interpDense q axis pos = .ok (q.map (densePoint axis pos)) := by
  have hflat := window_flatten_aux axis pos hsort (axis.length - 1) 0 (by omega) q hqs
    (fun x hx => by
      obtain ⟨i, h1, h2, h3⟩ := hcov x hx
      exact ⟨i, Nat.zero_le i, h1, h2, h3⟩)
  rw [← List.range_eq_range'] at hflat
  unfold interpDense
  rw [if_neg]
  · rw [hflat]
  · intro hall
    have hflat2 : ((List.range (axis.length - 1)).map (fun i =>
        (windowFilter axis i q).map (fun x =>
          baryEval3 (pySlice axis ((i : ℤ) - 4) ((i : ℤ) + 6))
                    (pySlice pos ((i : ℤ) - 4) ((i : ℤ) + 6)) x))).flatten = [] :=
      List.flatten_eq_nil_iff.mpr (fun l hl => by
        have := List.all_eq_true.mp hall l hl
        exact List.isEmpty_iff.mp this)
    rw [hflat, List.map_eq_nil_iff] at hflat2
    exact hne hflat2

/-! ## C2: windowed degree-9 interpolation -/

theorem window_length2 {α : Type _} (l : List α) (b : ℕ) (h4 : 4 ≤ b) (h6 : b + 6 ≤ l.length) :
    ((l.drop (b - 4)).take 10).length = 10 := by
  rw [List.length_take, List.length_drop]
  omega

/-- Window coverage from the interior hypothesis. -/
theorem interior_bracket (axis : List ℚ) (x : ℚ) (hn : 10 ≤ axis.length)
    (h1 : axis.getD 4 0 < x) (h2 : x < axis.getD (axis.length - 5) 0) :
    ∃ b, 4 ≤ b ∧ b + 6 ≤ axis.length ∧ axis.getD b 0 ≤ x ∧ x < axis.getD (b+1) 0 := by
  obtain ⟨b, hb1, hb2, hb3, hb4⟩ := exists_bracket axis x (axis.length - 5 - 4) 4
    (axis.length - 5) (by omega) (by omega) (by omega) (le_of_lt h1) h2
  exact ⟨b, hb1, by omega, hb3, hb4⟩

/-- Distinctness of the window nodes. -/
theorem window_nodes_injOn (axis : List ℚ) (b : ℕ) (hsort : axis.Sorted (· < ·))
    (hb1 : 4 ≤ b) (hb2 : b + 6 ≤ axis.length) :
    Set.InjOn (fun i => axis.getD (b-4+i) 0) ↑(Finset.range 10) := by
  intro i hi j hj heq
  simp only [Finset.coe_range, Set.mem_Iio] at hi hj
  by_contra hne
  rcases Nat.lt_or_ge i j with hij | hij
  · exact absurd heq (ne_of_lt (sorted_getD_lt axis hsort (i := b-4+i) (j := b-4+j)
      (by omega) (by omega)))
  · have hji : j < i := by omega
    exact absurd heq.symm (ne_of_lt (sorted_getD_lt axis hsort (i := b-4+j) (j := b-4+i)
      (by omega) (by omega)))

/-- C2: for every query point strictly inside the usable interior that does
not coincide with a sample-axis value, `interp_ephem` (in both its branches;
the batched branch needs the documented ascending-query precondition) finds
the bracketing pair `axis_b <= x < axis_(b+1)` of consecutive sample-axis
values and returns the value at `x` of the unique polynomial of degree at
most 9 through the 10 `(axis, position)` samples at indices
`[b-4, b+6)`, each Cartesian component interpolated on the shared axis. -/
theorem interp_ephem_degree9_window
    (q axis : List ℚ) (pos : List Vec3)
    (hsort : axis.Sorted (· < ·)) (hn : 10 ≤ axis.length) (hlen : pos.length = axis.length)
    (hint : ∀ x ∈ q, axis.getD 4 0 < x ∧ x < axis.getD (axis.length - 5) 0)
    (hnk : ∀ x ∈ q, x ∉ axis)
    (hqs : q.Sorted (· ≤ ·)) :
    ∃ out, interp_ephem q axis pos = .ok out ∧ out.length = q.length ∧
      ∀ j, j < q.length → ∃ b, 4 ≤ b ∧ b + 6 ≤ axis.length ∧
        axis.getD b 0 ≤ q.getD j 0 ∧ q.getD j 0 < axis.getD (b+1) 0 ∧
        out.getD j (0,0,0) =
          baryEval3 ((axis.drop (b-4)).take 10) ((pos.drop (b-4)).take 10) (q.getD j 0) ∧
        ∀ g ∈ [(fun p : Vec3 => p.1), (fun p : Vec3 => p.2.1), (fun p : Vec3 => p.2.2)],
          g (out.getD j (0,0,0)) = Polynomial.eval (q.getD j 0)
            (Lagrange.interpolate (Finset.range 10) (fun i => axis.getD (b-4+i) 0)
              (fun i => g (pos.getD (b-4+i) (0,0,0)))) ∧
          ∀ f : Polynomial ℚ, f.degree < 10 →
            (∀ i < 10, Polynomial.eval (axis.getD (b-4+i) 0) f = g (pos.getD (b-4+i) (0,0,0))) →
            f = Lagrange.interpolate (Finset.range 10) (fun i => axis.getD (b-4+i) 0)
              (fun i => g (pos.getD (b-4+i) (0,0,0))) := by
  have hpoint : ∀ x ∈ q, ∃ b, 4 ≤ b ∧ b + 6 ≤ axis.length ∧
      axis.getD b 0 ≤ x ∧ x < axis.getD (b+1) 0 ∧
      interpValue axis pos x =
        baryEval3 ((axis.drop (b-4)).take 10) ((pos.drop (b-4)).take 10) x ∧
      densePoint axis pos x =
        baryEval3 ((axis.drop (b-4)).take 10) ((pos.drop (b-4)).take 10) x := by
    intro x hx
    obtain ⟨h1, h2⟩ := hint x hx
    obtain ⟨b, hb1, hb2, hb3, hb4⟩ := interior_bracket axis x hn h1 h2
    have hbr : bracketIdx axis x = some b := bracketIdx_eq axis x b hsort (by omega) hb3 hb4
    refine ⟨b, hb1, hb2, hb3, hb4, ?_, ?_⟩
    · unfold interpValue
      rw [hbr]
      simp only []
      rw [if_neg (hnk x hx), pySlice_eq axis b hb1 hb2, pySlice_eq pos b hb1 (by omega)]
    · unfold densePoint
      rw [hbr]
      simp only []
      rw [pySlice_eq axis b hb1 hb2, pySlice_eq pos b hb1 (by omega)]
  have hcommon : ∀ x ∈ q, densePoint axis pos x = interpValue axis pos x := fun x hx => by
    obtain ⟨b, _, _, _, _, hiv, hdv⟩ := hpoint x hx
    rw [hiv, hdv]
  have hout : interp_ephem q axis pos = .ok (q.map (interpValue axis pos)) := by
    unfold interp_ephem
    by_cases hbranch : axis.length < q.length
    · rw [if_pos hbranch]
      have hne : q ≠ [] := by
        intro hq
        rw [hq] at hbranch
        simp only [List.length_nil] at hbranch
        omega
      rw [interpDense_spec q axis pos hsort hqs (fun x hx => by
        obtain ⟨b, hb1, hb2, hb3, hb4, _, _⟩ := hpoint x hx
        exact ⟨b, by omega, hb3, hb4⟩) hne]
      rw [List.map_congr_left hcommon]
    · rw [if_neg hbranch]
      exact interpSparse_eq_map axis pos q (fun x hx => by
        obtain ⟨b, hb1, hb2, hb3, hb4, _, _⟩ := hpoint x hx
        rw [bracketIdx_eq axis x b hsort (by omega) hb3 hb4]
        exact fun hc => Option.noConfusion hc)
  refine ⟨q.map (interpValue axis pos), hout, List.length_map q _, fun j hj => ?_⟩
  have hxq : q.getD j 0 ∈ q := by
    rw [List.getD_eq_getElem?_getD, List.getElem?_eq_getElem hj]
    exact List.getElem_mem hj
  obtain ⟨b, hb1, hb2, hb3, hb4, hiv, _⟩ := hpoint (q.getD j 0) hxq
  have hoj : (q.map (interpValue axis pos)).getD j (0,0,0) =
      interpValue axis pos (q.getD j 0) := getD_map_lt _ _ j hj _ 0
  have hposlen : b + 6 ≤ pos.length := by omega
  have hwlen : ((axis.drop (b-4)).take 10).length = 10 := window_length2 axis b hb1 hb2
  have hwplen : ((pos.drop (b-4)).take 10).length = 10 := window_length2 pos b hb1 hposlen
  refine ⟨b, hb1, hb2, hb3, hb4, by rw [hoj, hiv], ?_⟩
  intro g hg
  have hinj := window_nodes_injOn axis b hsort hb1 hb2
  have hcomp : g (baryEval3 ((axis.drop (b-4)).take 10) ((pos.drop (b-4)).take 10)
      (q.getD j 0)) = lagrangeEval ((axis.drop (b-4)).take 10)
        (((pos.drop (b-4)).take 10).map g) (q.getD j 0) := by
    rcases List.mem_cons.mp hg with rfl | hg2
    · rfl
    rcases List.mem_cons.mp hg2 with rfl | hg3
    · rfl
    rcases List.mem_cons.mp hg3 with rfl | hg4
    · rfl
    · simp at hg4
  have hbridge : lagrangeEval ((axis.drop (b-4)).take 10)
      (((pos.drop (b-4)).take 10).map g) (q.getD j 0) =
      Polynomial.eval (q.getD j 0)
        (Lagrange.interpolate (Finset.range 10) (fun i => axis.getD (b-4+i) 0)
          (fun i => g (pos.getD (b-4+i) (0,0,0)))) := by
    rw [lagrangeEval_eq_interpolate, hwlen]
    have hnodes : Lagrange.interpolate (Finset.range 10)
        (fun i => ((axis.drop (b-4)).take 10).getD i 0)
        (fun i => (((pos.drop (b-4)).take 10).map g).getD i 0) =
        Lagrange.interpolate (Finset.range 10) (fun i => axis.getD (b-4+i) 0)
        (fun i => g (pos.getD (b-4+i) (0,0,0))) := by
      rw [interpolate_congr_nodes (Finset.range 10) _ (fun i => axis.getD (b-4+i) 0) _
        (fun i hi => window_getD2 axis 0 b i (Finset.mem_range.mp hi))]
      apply Lagrange.interpolate_eq_of_values_eq_on
      intro i hi
      have hi10 := Finset.mem_range.mp hi
      rw [getD_map_lt g _ i (by omega) 0 (0,0,0), window_getD2 pos (0,0,0) b i hi10]
    rw [hnodes]
  constructor
  · rw [hoj, hiv, hcomp, hbridge]
  · intro f hdf hvals
    apply Lagrange.eq_interpolate_of_eval_eq _ hinj
    · rw [Finset.card_range]
      exact_mod_cast hdf
    · intro i hi
      exact hvals i (Finset.mem_range.mp hi)


/-- Witness for C2: ephemeris axis `0..9`, constant positions, one query at
`9/2` (inside the interior `(4, 5)`, not a knot). -/
theorem interp_ephem_degree9_window_witness :
    ∃ out, interp_ephem [9/2] [0,1,2,3,4,5,6,7,8,9]
        (List.replicate 10 ((1:ℚ),(2:ℚ),(3:ℚ))) = .ok out ∧
      out.length = ([9/2] : List ℚ).length ∧
      ∀ j, j < ([9/2] : List ℚ).length → ∃ b, 4 ≤ b ∧
        b + 6 ≤ ([0,1,2,3,4,5,6,7,8,9] : List ℚ).length ∧
        ([0,1,2,3,4,5,6,7,8,9] : List ℚ).getD b 0 ≤ ([9/2] : List ℚ).getD j 0 ∧
        ([9/2] : List ℚ).getD j 0 < ([0,1,2,3,4,5,6,7,8,9] : List ℚ).getD (b+1) 0 ∧
        out.getD j (0,0,0) =
          baryEval3 ((([0,1,2,3,4,5,6,7,8,9] : List ℚ).drop (b-4)).take 10)
            (((List.replicate 10 ((1:ℚ),(2:ℚ),(3:ℚ))).drop (b-4)).take 10)
            (([9/2] : List ℚ).getD j 0) ∧
        ∀ g ∈ [(fun p : Vec3 => p.1), (fun p : Vec3 => p.2.1), (fun p : Vec3 => p.2.2)],
          g (out.getD j (0,0,0)) = Polynomial.eval (([9/2] : List ℚ).getD j 0)
            (Lagrange.interpolate (Finset.range 10)
              (fun i => ([0,1,2,3,4,5,6,7,8,9] : List ℚ).getD (b-4+i) 0)
              (fun i => g ((List.replicate 10 ((1:ℚ),(2:ℚ),(3:ℚ))).getD (b-4+i) (0,0,0)))) ∧
          ∀ f : Polynomial ℚ, f.degree < 10 →
            (∀ i < 10, Polynomial.eval (([0,1,2,3,4,5,6,7,8,9] : List ℚ).getD (b-4+i) 0) f =
              g ((List.replicate 10 ((1:ℚ),(2:ℚ),(3:ℚ))).getD (b-4+i) (0,0,0))) →
            f = Lagrange.interpolate (Finset.range 10)
              (fun i => ([0,1,2,3,4,5,6,7,8,9] : List ℚ).getD (b-4+i) 0)
              (fun i => g ((List.replicate 10 ((1:ℚ),(2:ℚ),(3:ℚ))).getD (b-4+i) (0,0,0))) :=
  interp_ephem_degree9_window [9/2] [0,1,2,3,4,5,6,7,8,9]
    (List.replicate 10 ((1:ℚ),(2:ℚ),(3:ℚ)))
    (by decide) (by decide) (by decide)
    (fun x hx => by
      simp only [List.mem_singleton] at hx
      subst hx
      exact ⟨by norm_num [List.getD], by norm_num [List.getD]⟩)
    (fun x hx => by
      simp only [List.mem_singleton] at hx
      subst hx
      norm_num)
    (by simp)

/-! ## C4: exactness at knots -/

theorem pySlice_eq_clip {α : Type _} (l : List α) (b : ℕ) (h4 : 4 ≤ b) (hbl : b ≤ l.length) :
    pySlice l ((b : ℤ) - 4) ((b : ℤ) + 6) =
      (l.drop (b - 4)).take (min (b + 6) l.length - (b - 4)) := by
  unfold pySlice
  rw [if_neg (by omega), if_neg (by omega)]
  have h1 : (min ((b : ℤ) - 4) (l.length : ℤ)).toNat = b - 4 := by omega
  have h2 : (min ((b : ℤ) + 6) (l.length : ℤ)).toNat = min (b + 6) l.length := by omega
  rw [h1, h2, List.drop_take]

theorem take_drop_getD {α : Type _} (l : List α) (d : α) (a L i : ℕ) (hi : i < L) :
    ((l.drop a).take L).getD i d = l.getD (a + i) d := by
  rw [List.getD_eq_getElem?_getD, List.getD_eq_getElem?_getD, List.getElem?_take,
    if_pos hi, List.getElem?_drop]

theorem take_drop_length {α : Type _} (l : List α) (a L : ℕ) :
    ((l.drop a).take L).length = min L (l.length - a) := by
  rw [List.length_take, List.length_drop]

/-- At a sample time, the window interpolator of the dense branch returns
the tabulated sample exactly (the Lagrange value at a node). -/
theorem densePoint_at_knot (axis : List ℚ) (pos : List Vec3)
    (hsort : axis.Sorted (· < ·)) (hlen : pos.length = axis.length)
    (k : ℕ) (h4 : 4 ≤ k) (hk1 : k + 1 < axis.length) :
    densePoint axis pos (axis.getD k 0) = pos.getD k (0, 0, 0) := by
  have hbr : bracketIdx axis (axis.getD k 0) = some k :=
    bracketIdx_eq axis _ k hsort hk1 (le_refl _)
      (sorted_getD_lt axis hsort (Nat.lt_succ_self k) hk1)
  unfold densePoint
  rw [hbr]
  simp only []
  set L := min (k + 6) axis.length - (k - 4) with hL
  have hkl : k ≤ axis.length := by omega
  have hklp : k ≤ pos.length := by omega
  have hsliceA : pySlice axis ((k : ℤ) - 4) ((k : ℤ) + 6) =
      (axis.drop (k - 4)).take L := pySlice_eq_clip axis k h4 hkl
  have hsliceP : pySlice pos ((k : ℤ) - 4) ((k : ℤ) + 6) =
      (pos.drop (k - 4)).take L := by
    rw [pySlice_eq_clip pos k h4 hklp, hlen]
  have h4L : 4 < L := by omega
  have hwinlen : ((axis.drop (k - 4)).take L).length = L := by
    rw [take_drop_length]
    omega
  have hwinplen : ((pos.drop (k - 4)).take L).length = L := by
    rw [take_drop_length, hlen]
    omega
  have hnode : ((axis.drop (k - 4)).take L).getD 4 0 = axis.getD k 0 := by
    rw [take_drop_getD axis 0 (k - 4) L 4 h4L]
    congr 1
    omega
  have hnd : ∀ a b : ℕ, a < ((axis.drop (k - 4)).take L).length →
      b < ((axis.drop (k - 4)).take L).length → a ≠ b →
      ((axis.drop (k - 4)).take L).getD a 0 ≠ ((axis.drop (k - 4)).take L).getD b 0 := by
    intro a b ha hb hab
    rw [hwinlen] at ha hb
    rw [take_drop_getD axis 0 (k - 4) L a ha, take_drop_getD axis 0 (k - 4) L b hb]
    have hbound : k - 4 + a < axis.length ∧ k - 4 + b < axis.length := by
      constructor <;> omega
    rcases Nat.lt_or_ge a b with h | h
    · exact ne_of_lt (sorted_getD_lt axis hsort (by omega) hbound.2)
    · have : b < a := by omega
      exact (ne_of_lt (sorted_getD_lt axis hsort (by omega) hbound.1)).symm
  have hcomp : ∀ g : Vec3 → ℚ,
      lagrangeEval ((axis.drop (k - 4)).take L) (((pos.drop (k - 4)).take L).map g)
        (axis.getD k 0) = g (pos.getD k (0, 0, 0)) := by
    intro g
    rw [← hnode]
    rw [lagrangeEval_at_node _ _ 4 (by rw [hwinlen.symm] at h4L; exact (hwinlen ▸ h4L)) hnd]
    rw [getD_map_lt g _ 4 (by rw [hwinplen]; exact h4L) 0 (0,0,0),
      take_drop_getD pos (0,0,0) (k - 4) L 4 h4L]
    congr 2
    omega
  rw [hsliceA, hsliceP]
  unfold baryEval3
  rw [hcomp (fun p => p.1), hcomp (fun p => p.2.1), hcomp (fun p => p.2.2)]

/-- C4: for every query coordinate that exactly equals a sample-axis value,
the interpolator returns that sample's stored position exactly, in both the
sparse-query and the dense-query code paths. -/
theorem knot_exact
    (q axis : List ℚ) (pos : List Vec3)
    (hsort : axis.Sorted (· < ·)) (hn : 10 ≤ axis.length) (hlen : pos.length = axis.length)
    (hint : ∀ x ∈ q, axis.getD 4 0 ≤ x ∧ x ≤ axis.getD (axis.length - 5) 0)
    (hqs : q.Sorted (· ≤ ·)) :
    ∃ out, interp_ephem q axis pos = .ok out ∧ out.length = q.length ∧
      ∀ j k, j < q.length → k < axis.length → q.getD j 0 = axis.getD k 0 →
        out.getD j (0,0,0) = pos.getD k (0,0,0) := by
  have hcov : ∀ x ∈ q, ∃ b, 4 ≤ b ∧ b + 1 < axis.length ∧
      axis.getD b 0 ≤ x ∧ x < axis.getD (b+1) 0 := by
    intro x hx
    obtain ⟨h1, h2⟩ := hint x hx
    have h3 : x < axis.getD (axis.length - 4) 0 :=
      lt_of_le_of_lt h2 (sorted_getD_lt axis hsort (by omega) (by omega))
    obtain ⟨b, hb1, hb2, hb3, hb4⟩ := exists_bracket axis x (axis.length - 4 - 4) 4
      (axis.length - 4) (by omega) (by omega) (by omega) h1 h3
    exact ⟨b, hb1, by omega, hb3, hb4⟩
  have hbk : ∀ x ∈ q, ∀ b k, k < axis.length → x = axis.getD k 0 →
      axis.getD b 0 ≤ x → x < axis.getD (b+1) 0 → b + 1 < axis.length → b = k := by
    intro x _ b k hklen hxk hble hblt hb1len
    have hbk1 : ¬ (k < b) := by
      intro hkb
      exact absurd (lt_of_lt_of_le (hxk ▸ sorted_getD_lt axis hsort hkb (by omega)) hble)
        (lt_irrefl x)
    have hbk2 : ¬ (b + 1 ≤ k) := by
      intro hk
      exact absurd (lt_of_lt_of_le hblt (hxk ▸ sorted_getD_le axis hsort hk hklen))
        (lt_irrefl x)
    omega
  have hcommon : ∀ x ∈ q, densePoint axis pos x = interpValue axis pos x := by
    intro x hx
    obtain ⟨b, hb1, hb2, hb3, hb4⟩ := hcov x hx
    have hbr : bracketIdx axis x = some b := bracketIdx_eq axis x b hsort hb2 hb3 hb4
    unfold densePoint interpValue
    rw [hbr]
    simp only []
    by_cases hmem : x ∈ axis
    · rw [if_pos hmem]
      obtain ⟨k, hklen, hxk⟩ := List.mem_iff_getElem.mp hmem
      have hxk2 : x = axis.getD k 0 := by
        rw [List.getD_eq_getElem?_getD, List.getElem?_eq_getElem hklen]
        exact hxk.symm
      have hbk2 : b = k := hbk x hx b k hklen hxk2 hb3 hb4 hb2
      subst hbk2
      rw [hxk2]
      have hbr2 : bracketIdx axis (axis.getD b 0) = some b := by
        rw [← hxk2]
        exact hbr
      have hdp := densePoint_at_knot axis pos hsort hlen b hb1 hb2
      rw [show densePoint axis pos (axis.getD b 0) =
          baryEval3 (pySlice axis ((b : ℤ) - 4) ((b : ℤ) + 6))
            (pySlice pos ((b : ℤ) - 4) ((b : ℤ) + 6)) (axis.getD b 0) from by
        unfold densePoint
        rw [hbr2]] at hdp
      exact hdp
    · rw [if_neg hmem]
  have hout : interp_ephem q axis pos = .ok (q.map (interpValue axis pos)) := by
    unfold interp_ephem
    by_cases hbranch : axis.length < q.length
    · rw [if_pos hbranch]
      have hne : q ≠ [] := by
        intro hq
        rw [hq] at hbranch
        simp only [List.length_nil] at hbranch
        omega
      rw [interpDense_spec q axis pos hsort hqs (fun x hx => by
        obtain ⟨b, hb1, hb2, hb3, hb4⟩ := hcov x hx
        exact ⟨b, hb2, hb3, hb4⟩) hne]
      rw [List.map_congr_left hcommon]
    · rw [if_neg hbranch]
      exact interpSparse_eq_map axis pos q (fun x hx => by
        obtain ⟨b, hb1, hb2, hb3, hb4⟩ := hcov x hx
        rw [bracketIdx_eq axis x b hsort hb2 hb3 hb4]
        exact fun hc => Option.noConfusion hc)
  refine ⟨q.map (interpValue axis pos), hout, List.length_map q _, fun j k hj hk hqk => ?_⟩
  have hxq : q.getD j 0 ∈ q := by
    rw [List.getD_eq_getElem?_getD, List.getElem?_eq_getElem hj]
    exact List.getElem_mem hj
  obtain ⟨b, hb1, hb2, hb3, hb4⟩ := hcov (q.getD j 0) hxq
  have hbr : bracketIdx axis (q.getD j 0) = some b :=
    bracketIdx_eq axis _ b hsort hb2 hb3 hb4
  have hbeqk : b = k := hbk (q.getD j 0) hxq b k hk hqk hb3 hb4 hb2
  have hmem : q.getD j 0 ∈ axis := by
    rw [hqk, List.getD_eq_getElem?_getD, List.getElem?_eq_getElem hk]
    exact List.getElem_mem hk
  rw [getD_map_lt _ _ j hj _ 0]
  unfold interpValue
  rw [hbr]
  simp only []
  rw [if_pos hmem, hbeqk]

/-- Witness for C4: ephemeris axis `0..9` with positions `(k, k, k)`, one
query exactly at the knot `5`; the returned position is the stored sample. -/
theorem knot_exact_witness :
    ∃ out, interp_ephem [5] [0,1,2,3,4,5,6,7,8,9]
        [((0:ℚ),(0:ℚ),(0:ℚ)), (1,1,1), (2,2,2), (3,3,3), (4,4,4),
         (5,5,5), (6,6,6), (7,7,7), (8,8,8), (9,9,9)] = .ok out ∧
      out.length = ([5] : List ℚ).length ∧
      ∀ j k, j < ([5] : List ℚ).length → k < ([0,1,2,3,4,5,6,7,8,9] : List ℚ).length →
        ([5] : List ℚ).getD j 0 = ([0,1,2,3,4,5,6,7,8,9] : List ℚ).getD k 0 →
        out.getD j (0,0,0) =
          ([((0:ℚ),(0:ℚ),(0:ℚ)), (1,1,1), (2,2,2), (3,3,3), (4,4,4),
            (5,5,5), (6,6,6), (7,7,7), (8,8,8), (9,9,9)] : List Vec3).getD k (0,0,0) :=
  knot_exact [5] [0,1,2,3,4,5,6,7,8,9]
    [((0:ℚ),(0:ℚ),(0:ℚ)), (1,1,1), (2,2,2), (3,3,3), (4,4,4),
     (5,5,5), (6,6,6), (7,7,7), (8,8,8), (9,9,9)]
    (by decide) (by decide) (by decide)
    (fun x hx => by
      simp only [List.mem_singleton] at hx
      subst hx
      exact ⟨by norm_num [List.getD], by norm_num [List.getD]⟩)
    (by simp)


/-! ## C5: apparent-mode light-time correction -/

theorem getD_zipWith (f : ℚ → ℚ → ℚ) (l1 l2 : List ℚ) (j : ℕ)
    (h1 : j < l1.length) (h2 : j < l2.length) :
    (List.zipWith f l1 l2).getD j 0 = f (l1.getD j 0) (l2.getD j 0) := by
  rw [List.getD_eq_getElem?_getD, List.getElem?_zipWith, List.getElem?_eq_getElem h1,
    List.getElem?_eq_getElem h2]
  rw [List.getD_eq_getElem?_getD, List.getElem?_eq_getElem h1,
    List.getD_eq_getElem?_getD, List.getElem?_eq_getElem h2]
  rfl

/-- C5: in apparent mode, `cpf_interp_azalt` performs exactly one
non-iterative light-time correction: with `tau = r/c` from the geometric
range at the nominal instant, it re-interpolates at `t + tau` (transmit) and
`t - tau` (receive) - the shifted quasi-day axes are the nominal axis moved
by `(r/c)/86400` - returns the transmit-epoch az/alt/range as primary
outputs, `delta = receive - transmit` for azimuth and altitude, and time of
flight `2 * r_transmit / c`. -/
theorem apparent_single_pass_light_time
    (eph : CpfEph) (ts : List ℚ) (ts_mjd : List ℤ) (ts_sod : List ℚ)
    (station : Vec3) (coord_type : String)
    (H : Site → List ℚ → List Vec3 → List ℚ × List ℚ × List ℚ)
    (ls : List ℤ) (P Pt Pr : List Vec3)
    (az alt r azt altt rt azr altr rr : List ℚ)
    (h1 : querysLeap eph.leap eph.mjd ts_mjd = .ok ls)
    (h2 : interp_ephem (cpfAxes eph ts_mjd ts_sod ls).1 (cpfAxes eph ts_mjd ts_sod ls).2
      eph.pos = .ok P)
    (h3 : itrs2horizon H station ts P coord_type = .ok (az, alt, r))
    (h4 : interp_ephem (quasiAxis ts_mjd
        (List.zipWith (· + ·) ts_sod (r.map (fun v => v / speed_of_light))) ls (medianZ eph.mjd))
      (cpfAxes eph ts_mjd ts_sod ls).2 eph.pos = .ok Pt)
    (h5 : interp_ephem (quasiAxis ts_mjd
        (List.zipWith (· - ·) ts_sod (r.map (fun v => v / speed_of_light))) ls (medianZ eph.mjd))
      (cpfAxes eph ts_mjd ts_sod ls).2 eph.pos = .ok Pr)
    (h6 : itrs2horizon H station ts Pt coord_type = .ok (azt, altt, rt))
    (h7 : itrs2horizon H station ts Pr coord_type = .ok (azr, altr, rr))
    (hsl : ts_sod.length = ts_mjd.length) (hrl : r.length = ts_mjd.length) :
    cpf_interp_azalt eph ts ts_mjd ts_sod "apparent" station coord_type H =
      .ok (.apparent azt altt (List.zipWith (· - ·) azr azt) (List.zipWith (· - ·) altr altt)
        rt (rt.map (fun v => 2 * v / speed_of_light))) ∧
    ∀ j, j < ts_mjd.length →
      (quasiAxis ts_mjd (List.zipWith (· + ·) ts_sod (r.map (fun v => v / speed_of_light)))
          ls (medianZ eph.mjd)).getD j 0 =
        (cpfAxes eph ts_mjd ts_sod ls).1.getD j 0 + (r.getD j 0 / speed_of_light) / 86400 ∧
      (quasiAxis ts_mjd (List.zipWith (· - ·) ts_sod (r.map (fun v => v / speed_of_light)))
          ls (medianZ eph.mjd)).getD j 0 =
        (cpfAxes eph ts_mjd ts_sod ls).1.getD j 0 - (r.getD j 0 / speed_of_light) / 86400 := by
  constructor
  · unfold cpf_interp_azalt
    rw [h1]
    simp only [Bind.bind, Except.bind]
    simp only [h2, h3]
    simp only [if_true]
    simp only [h4, h5, h6, h7]
    rw [if_neg (show ¬ (("apparent" : String) = "geometric") from by decide)]
    rfl
  · intro j hj
    have hmap : j < (r.map (fun v => v / speed_of_light)).length := by
      rw [List.length_map]
      omega
    have hsj : j < ts_sod.length := by omega
    have hrj : j < r.length := by omega
    have htau : (r.map (fun v => v / speed_of_light)).getD j 0 = r.getD j 0 / speed_of_light :=
      getD_map_lt _ _ j hrj 0 0
    constructor
    · rw [quasiAxis_getD _ _ _ _ j hj,
        show (cpfAxes eph ts_mjd ts_sod ls).1 = quasiAxis ts_mjd ts_sod ls (medianZ eph.mjd)
          from rfl,
        quasiAxis_getD _ _ _ _ j hj,
        getD_zipWith _ _ _ j hsj hmap, htau]
      ring
    · rw [quasiAxis_getD _ _ _ _ j hj,
        show (cpfAxes eph ts_mjd ts_sod ls).1 = quasiAxis ts_mjd ts_sod ls (medianZ eph.mjd)
          from rfl,
        quasiAxis_getD _ _ _ _ j hj,
        getD_zipWith _ _ _ j hsj hmap, htau]
      ring

/-- Witness for C5: two-sample ephemeris on one day, one query at the first
sample with a collaborator reporting zero range (so `tau = 0`). -/
theorem apparent_single_pass_light_time_witness :
    cpf_interp_azalt ⟨[0, 0], [0, 86400], [0, 0], [(1,2,3), (4,5,6)]⟩ [0] [0] [0]
        "apparent" (0, 0, 0) "geocentric"
        (fun _ _ ps => (ps.map (fun p => p.1), ps.map (fun p => p.2.1),
          ps.map (fun _ => (0:ℚ)))) =
      .ok (.apparent [1] [2] (List.zipWith (· - ·) [1] [1]) (List.zipWith (· - ·) [2] [2])
        [0] (([0] : List ℚ).map (fun v => 2 * v / speed_of_light))) ∧
    ∀ j, j < ([0] : List ℤ).length →
      (quasiAxis [0] (List.zipWith (· + ·) [0] (([0] : List ℚ).map
          (fun v => v / speed_of_light))) [0] (medianZ [0, 0])).getD j 0 =
        (cpfAxes ⟨[0, 0], [0, 86400], [0, 0], [(1,2,3), (4,5,6)]⟩ [0] [0] [0]).1.getD j 0 +
          (([0] : List ℚ).getD j 0 / speed_of_light) / 86400 ∧
      (quasiAxis [0] (List.zipWith (· - ·) [0] (([0] : List ℚ).map
          (fun v => v / speed_of_light))) [0] (medianZ [0, 0])).getD j 0 =
        (cpfAxes ⟨[0, 0], [0, 86400], [0, 0], [(1,2,3), (4,5,6)]⟩ [0] [0] [0]).1.getD j 0 -
          (([0] : List ℚ).getD j 0 / speed_of_light) / 86400 := by
  have hbr : bracketIdx [-(medianZ [0, 0]), 1 - medianZ [0, 0]] (-(medianZ [0, 0])) = some 0 := by
    apply bracketIdx_eq _ _ 0
    · simp [List.sorted_cons]
    · simp
    · simp [List.getD]
    · simp [List.getD]
  have hram : interp_ephem [-(medianZ [0, 0])] [-(medianZ [0, 0]), 1 - medianZ [0, 0]]
      [((1:ℚ),(2:ℚ),(3:ℚ)), (4,5,6)] = .ok [(1,2,3)] := by
    have hmap := interpSparse_eq_map [-(medianZ [0, 0]), 1 - medianZ [0, 0]]
      [((1:ℚ),(2:ℚ),(3:ℚ)), (4,5,6)] [-(medianZ [0, 0])]
      (fun x hx => by
        simp only [List.mem_singleton] at hx
        subst hx
        rw [hbr]
        exact fun h => Option.noConfusion h)
    unfold interp_ephem
    rw [if_neg (by norm_num), hmap]
    congr 1
    rw [List.map_singleton]
    unfold interpValue
    rw [hbr]
    simp only []
    rw [if_pos (List.mem_cons_self _ _)]
    rfl
  have hA1 : (cpfAxes ⟨[0, 0], [0, 86400], [0, 0], [(1,2,3), (4,5,6)]⟩ [0] [0] [0]).1 =
      [-(medianZ [0, 0])] := by
    simp [cpfAxes, quasiAxis]
  have hA2 : (cpfAxes ⟨[0, 0], [0, 86400], [0, 0], [(1,2,3), (4,5,6)]⟩ [0] [0] [0]).2 =
      [-(medianZ [0, 0]), 1 - medianZ [0, 0]] := by
    simp [cpfAxes, quasiAxis, List.range_succ]
    ring
  have hAt : quasiAxis [0] (List.zipWith (· + ·) [0] (([0] : List ℚ).map
      (fun v => v / speed_of_light))) [0] (medianZ [0, 0]) = [-(medianZ [0, 0])] := by
    simp [quasiAxis, speed_of_light]
  have hAr : quasiAxis [0] (List.zipWith (· - ·) [0] (([0] : List ℚ).map
      (fun v => v / speed_of_light))) [0] (medianZ [0, 0]) = [-(medianZ [0, 0])] := by
    simp [quasiAxis, speed_of_light]
  have hH : itrs2horizon (fun _ _ ps => (ps.map (fun p => p.1), ps.map (fun p => p.2.1),
      ps.map (fun _ => (0:ℚ)))) ((0:ℚ), (0:ℚ), (0:ℚ)) [0] [((1:ℚ),(2:ℚ),(3:ℚ))] "geocentric" =
      .ok ([1], [2], [0]) := by
    unfold itrs2horizon
    rw [if_pos rfl]
    rfl
  exact apparent_single_pass_light_time
    ⟨[0, 0], [0, 86400], [0, 0], [(1,2,3), (4,5,6)]⟩ [0] [0] [0] (0, 0, 0) "geocentric"
    (fun _ _ ps => (ps.map (fun p => p.1), ps.map (fun p => p.2.1), ps.map (fun _ => (0:ℚ))))
    [0] [(1,2,3)] [(1,2,3)] [(1,2,3)] [1] [2] [0] [1] [2] [0] [1] [2] [0]
    rfl
    (by rw [hA1, hA2]; exact hram)
    hH
    (by rw [hAt, hA2]; exact hram)
    (by rw [hAr, hA2]; exact hram)
    hH hH rfl rfl

theorem arangeQ_getLast (start stop step : ℚ) (hstep : 0 < step)
    (hpos : 0 < (stop - start) / step) :
    (arangeQ start stop step).getLast? =
      some (start + ((⌈(stop - start) / step⌉.toNat - 1 : ℕ) : ℚ) * step) := by
  unfold arangeQ
  have hc : 0 < ⌈(stop - start) / step⌉.toNat := by
    have := Int.ceil_pos.mpr hpos
    omega
  rw [List.getLast?_eq_getElem?, List.length_map, List.length_range, List.getElem?_map,
    List.getElem?_range (by omega)]
  rfl

theorem t_list_overshoot (t_start t_end t_step : ℚ) (hstep : 0 < t_step)
    (hdt : 0 ≤ roundHalfEven (t_end - t_start))
    (hnm : ¬ ∃ k : ℤ, (k : ℚ) * t_step = (roundHalfEven (t_end - t_start) : ℚ))
    (hspan : (t_end - t_start : ℚ) = (roundHalfEven (t_end - t_start) : ℚ)) :
    ∃ last, (t_list t_start t_end t_step).getLast? = some last ∧
      t_end < last ∧ last < t_end + t_step := by
  set D : ℚ := (roundHalfEven (t_end - t_start) : ℚ) with hD
  have hDpos : 0 ≤ D := by
    rw [hD]
    exact_mod_cast hdt
  have hpos : 0 < (D + t_step - 0) / t_step := by
    apply div_pos
    · linarith
    · exact hstep
  unfold t_list
  rw [List.getLast?_eq_getElem?, List.length_map]
  have hlast := arangeQ_getLast 0 (D + t_step) t_step hstep (by simpa using hpos)
  rw [List.getLast?_eq_getElem?] at hlast
  set cnt := (⌈(D + t_step - 0) / t_step⌉).toNat with hcnt
  have hKeq : ⌈(D + t_step - 0) / t_step⌉ = ⌈D / t_step⌉ + 1 := by
    rw [show D + t_step - 0 = D + t_step from by ring]
    rw [show (D + t_step) / t_step = D / t_step + 1 from by
      field_simp]
    exact Int.ceil_add_one _
  have hK0 : 0 ≤ ⌈D / t_step⌉ := Int.ceil_nonneg (div_nonneg hDpos (le_of_lt hstep))
  have hcnt1 : cnt = (⌈D / t_step⌉).toNat + 1 := by
    rw [hcnt, hKeq]
    omega
  have hlt1 : D < (⌈D / t_step⌉ : ℚ) * t_step := by
    have hle : D / t_step ≤ (⌈D / t_step⌉ : ℚ) := Int.le_ceil _
    have hne : D / t_step ≠ ((⌈D / t_step⌉ : ℚ)) := by
      intro he
      apply hnm
      refine ⟨⌈D / t_step⌉, ?_⟩
      rw [hD] at he ⊢
      field_simp at he
      linarith [he]
    have : D / t_step < (⌈D / t_step⌉ : ℚ) := lt_of_le_of_ne hle hne
    calc D = D / t_step * t_step := by field_simp
    _ < (⌈D / t_step⌉ : ℚ) * t_step := by
        apply mul_lt_mul_of_pos_right this hstep
  have hlt2 : (⌈D / t_step⌉ : ℚ) * t_step < D + t_step := by
    have : (⌈D / t_step⌉ : ℚ) < D / t_step + 1 := Int.ceil_lt_add_one _
    calc (⌈D / t_step⌉ : ℚ) * t_step < (D / t_step + 1) * t_step :=
          mul_lt_mul_of_pos_right this hstep
    _ = D + t_step := by field_simp
  have hc2 : ((cnt - 1 : ℕ) : ℚ) = (⌈D / t_step⌉ : ℚ) := by
    rw [hcnt1, Nat.add_sub_cancel]
    exact_mod_cast congrArg (fun z : ℤ => (z : ℚ)) (Int.toNat_of_nonneg hK0)
  refine ⟨t_start + ((cnt - 1 : ℕ) : ℚ) * t_step, ?_, ?_, ?_⟩
  · rw [List.getElem?_map]
    have harr : (arangeQ 0 (D + t_step) t_step).length = cnt := by
      unfold arangeQ
      rw [List.length_map, List.length_range]
    rw [harr] at hlast
    rw [harr, hlast]
    rw [show Option.map (fun s => t_start + s) (some (0 + ((cnt - 1 : ℕ) : ℚ) * t_step)) =
      some (t_start + (0 + ((cnt - 1 : ℕ) : ℚ) * t_step)) from rfl]
    congr 1
    ring
  · have hend : t_end = t_start + D := by linarith [hspan]
    rw [hend, hc2]
    linarith [hlt1]
  · have hend : t_end = t_start + D := by linarith [hspan]
    rw [hend, hc2]
    linarith [hlt2]

theorem interpQuery_beyond_end (axis : List ℚ) (pos : List Vec3) (x : ℚ)
    (hsort : axis.Sorted (· < ·)) (hlast : axis.getD (axis.length - 1) 0 ≤ x) :
    interpQuery axis pos x = .error .indexError := by
  have hbr : bracketIdx axis x = none := by
    unfold bracketIdx
    apply List.find?_eq_none.mpr
    intro i hi
    have hi2 := List.mem_range.mp hi
    have h1 : axis.getD i 0 ≤ x :=
      le_trans (sorted_getD_le axis hsort (by omega) (by omega)) hlast
    have h2 : axis.getD (i+1) 0 ≤ x :=
      le_trans (sorted_getD_le axis hsort (by omega) (by omega)) hlast
    rw [decide_eq_true h1, decide_eq_true h2]
    simp
  unfold interpQuery
  rw [hbr]

theorem filter_ite_length (is : List ℕ) (p : ℕ → Bool) :
    (is.filter p).length = (is.map (fun i => if p i then 1 else 0)).sum := by
  induction is with
  | nil => rfl
  | cons a t ih =>
    rw [List.filter_cons, List.map_cons, List.sum_cons]
    by_cases h : p a
    · rw [if_pos h, if_pos (by rw [h]), List.length_cons, ih]
      omega
    · rw [if_neg (by simp [h]), if_neg (by simp [h]), ih]
      omega

theorem sum_map_add (is : List ℕ) (a b : ℕ → ℕ) :
    (is.map (fun i => a i + b i)).sum = (is.map a).sum + (is.map b).sum := by
  induction is with
  | nil => rfl
  | cons x t ih =>
    rw [List.map_cons, List.map_cons, List.map_cons, List.sum_cons, List.sum_cons,
      List.sum_cons, ih]
    omega

theorem sum_countP_swap (is : List ℕ) (p : ℕ → ℚ → Bool) :
    ∀ q : List ℚ, (is.map (fun i => (q.filter (fun x => p i x)).length)).sum
      = (q.map (fun x => (is.filter (fun i => p i x)).length)).sum := by
  intro q
  induction q with
  | nil => simp
  | cons x t ih =>
    rw [List.map_cons, List.sum_cons, ← ih]
    have hstep : ∀ i : ℕ, ((x :: t).filter (fun y => p i y)).length =
        (if p i x then 1 else 0) + (t.filter (fun y => p i y)).length := by
      intro i
      rw [List.filter_cons]
      by_cases h : p i x
      · rw [if_pos (by rw [h]), if_pos h, List.length_cons]
        omega
      · rw [if_neg (by simp [h]), if_neg h]
        omega
    rw [List.map_congr_left (fun i _ => hstep i), sum_map_add, ← filter_ite_length]

theorem window_count_le_one (axis : List ℚ) (hsort : axis.Sorted (· < ·)) (x : ℚ) :
    ((List.range (axis.length - 1)).filter (fun i =>
      decide (axis.getD i 0 ≤ x) && decide (x < axis.getD (i+1) 0))).length ≤ 1 := by
  rcases hf : (List.range (axis.length - 1)).filter (fun i =>
      decide (axis.getD i 0 ≤ x) && decide (x < axis.getD (i+1) 0)) with _ | ⟨a, rest⟩
  · simp
  rcases rest with _ | ⟨b, rest2⟩
  · simp
  exfalso
  have hnd : (a :: b :: rest2).Nodup := hf ▸ (List.nodup_range _).filter _
  have hab : a ≠ b := by
    intro he
    subst he
    exact absurd (List.mem_cons_self a rest2) (List.nodup_cons.mp hnd).1
  have ha : a ∈ (List.range (axis.length - 1)).filter (fun i =>
      decide (axis.getD i 0 ≤ x) && decide (x < axis.getD (i+1) 0)) := by
    rw [hf]
    exact List.mem_cons_self _ _
  have hb : b ∈ (List.range (axis.length - 1)).filter (fun i =>
      decide (axis.getD i 0 ≤ x) && decide (x < axis.getD (i+1) 0)) := by
    rw [hf]
    exact List.mem_cons_of_mem _ (List.mem_cons_self _ _)
  obtain ⟨har, hap⟩ := List.mem_filter.mp ha
  obtain ⟨hbr, hbp⟩ := List.mem_filter.mp hb
  have har2 := List.mem_range.mp har
  have hbr2 := List.mem_range.mp hbr
  simp only [Bool.and_eq_true, decide_eq_true_eq] at hap hbp
  rcases Nat.lt_or_ge a b with h | h
  · exact absurd (lt_of_lt_of_le hap.2
      (le_trans (sorted_getD_le axis hsort (by omega) (by omega)) hbp.1)) (lt_irrefl x)
  · have hba : b < a := by omega
    exact absurd (lt_of_lt_of_le hbp.2
      (le_trans (sorted_getD_le axis hsort (by omega) (by omega)) hap.1)) (lt_irrefl x)

theorem sum_le_len (l : List ℕ) (h : ∀ y ∈ l, y ≤ 1) : l.sum ≤ l.length := by
  induction l with
  | nil => simp
  | cons a t ih =>
    rw [List.sum_cons, List.length_cons]
    have := h a (List.mem_cons_self a t)
    have ht := ih (fun y hy => h y (List.mem_cons_of_mem a hy))
    omega

theorem interpDense_drops (q axis : List ℚ) (pos : List Vec3) (x0 : ℚ)
    (hsort : axis.Sorted (· < ·)) (hx0 : x0 ∈ q)
    (hbey : axis.getD (axis.length - 1) 0 ≤ x0) :
    ∀ out, interpDense q axis pos = .ok out → out.length < q.length := by
  intro out hout
  unfold interpDense at hout
  by_cases hall : ((List.range (axis.length - 1)).map (fun i =>
      (windowFilter axis i q).map (fun x =>
        baryEval3 (pySlice axis ((i : ℤ) - 4) ((i : ℤ) + 6))
                  (pySlice pos ((i : ℤ) - 4) ((i : ℤ) + 6)) x))).all List.isEmpty
  · rw [if_pos hall] at hout
    exact absurd hout (by intro h; exact Except.noConfusion h)
  · rw [if_neg hall] at hout
    have hout2 : out = ((List.range (axis.length - 1)).map (fun i =>
        (windowFilter axis i q).map (fun x =>
          baryEval3 (pySlice axis ((i : ℤ) - 4) ((i : ℤ) + 6))
                    (pySlice pos ((i : ℤ) - 4) ((i : ℤ) + 6)) x))).flatten := by
      injection hout with h
      exact h.symm
    subst hout2
    rw [List.length_flatten, List.map_map]
    have hcomp : (List.length ∘ fun i =>
        (windowFilter axis i q).map (fun x =>
          baryEval3 (pySlice axis ((i : ℤ) - 4) ((i : ℤ) + 6))
                    (pySlice pos ((i : ℤ) - 4) ((i : ℤ) + 6)) x)) =
        (fun i => (q.filter (fun x => decide (axis.getD i 0 ≤ x) &&
          decide (x < axis.getD (i+1) 0))).length) := by
      funext i
      simp only [Function.comp, List.length_map]
      rfl
    rw [hcomp, sum_countP_swap]
    obtain ⟨s, t, rfl⟩ := List.append_of_mem hx0
    rw [List.map_append, List.map_cons, List.sum_append, List.sum_cons]
    have hx0cnt : ((List.range (axis.length - 1)).filter (fun i =>
        decide (axis.getD i 0 ≤ x0) && decide (x0 < axis.getD (i+1) 0))).length = 0 := by
      rw [List.length_eq_zero]
      apply List.filter_eq_nil_iff.mpr
      intro i hi
      have hi2 := List.mem_range.mp hi
      have : axis.getD (i+1) 0 ≤ x0 :=
        le_trans (sorted_getD_le axis hsort (by omega) (by omega)) hbey
      rw [decide_eq_false (not_lt.mpr this), Bool.and_false]
      exact Bool.false_ne_true
    rw [hx0cnt]
    have hs := sum_le_len (s.map (fun x => ((List.range (axis.length - 1)).filter (fun i =>
        decide (axis.getD i 0 ≤ x) && decide (x < axis.getD (i+1) 0))).length))
      (fun y hy => by
        obtain ⟨x, _, rfl⟩ := List.mem_map.mp hy
        exact window_count_le_one axis hsort x)
    have ht := sum_le_len (t.map (fun x => ((List.range (axis.length - 1)).filter (fun i =>
        decide (axis.getD i 0 ≤ x) && decide (x < axis.getD (i+1) 0))).length))
      (fun y hy => by
        obtain ⟨x, _, rfl⟩ := List.mem_map.mp hy
        exact window_count_le_one axis hsort x)
    rw [List.length_map] at hs ht
    rw [List.length_append, List.length_cons]
    omega

/-- C10: when the rounded span is not an exact multiple of the increment,
the generated time series overshoots `t_end` by less than one increment, and
the excess instants receive no further validation: a query at or beyond the
last ephemeris-axis value raises `IndexError` in the per-query bracket
search, while the dense branch silently drops it, returning fewer outputs
than queries. -/
theorem t_list_overshoot_unvalidated :
    (∀ t_start t_end t_step : ℚ, 0 < t_step →
      0 ≤ roundHalfEven (t_end - t_start) →
      (¬ ∃ k : ℤ, (k : ℚ) * t_step = (roundHalfEven (t_end - t_start) : ℚ)) →
      (t_end - t_start : ℚ) = (roundHalfEven (t_end - t_start) : ℚ) →
      ∃ last, (t_list t_start t_end t_step).getLast? = some last ∧
        t_end < last ∧ last < t_end + t_step) ∧
    (∀ axis : List ℚ, ∀ pos : List Vec3, ∀ x : ℚ, axis.Sorted (· < ·) →
      axis.getD (axis.length - 1) 0 ≤ x →
      interpQuery axis pos x = .error .indexError) ∧
    (∀ q axis : List ℚ, ∀ pos : List Vec3, ∀ x : ℚ, axis.Sorted (· < ·) →
      x ∈ q → axis.getD (axis.length - 1) 0 ≤ x →
      ∀ out, interpDense q axis pos = .ok out → out.length < q.length) := by
  refine ⟨?_, ?_, ?_⟩
  · intro t_start t_end t_step h1 h2 h3 h4
    exact t_list_overshoot t_start t_end t_step h1 h2 h3 h4
  · intro axis pos x h1 h2
    exact interpQuery_beyond_end axis pos x h1 h2
  · intro q axis pos x h1 h2 h3
    exact interpDense_drops q axis pos x h1 h2 h3

theorem t_list_overshoot_unvalidated_witness :
    (∃ last, (t_list 0 10 3).getLast? = some last ∧ (10 : ℚ) < last ∧ last < 10 + 3) ∧
    interpQuery [0, 1] [((0:ℚ), (0:ℚ), (0:ℚ)), (0, 0, 0)] 5 = .error .indexError ∧
    interpDense [0, 5] [0, 1] [((0:ℚ), (0:ℚ), (0:ℚ)), (0, 0, 0)] =
      .ok [baryEval3 [0, 1] [((0:ℚ), (0:ℚ), (0:ℚ)), (0, 0, 0)] 0] ∧
    [baryEval3 [0, 1] [((0:ℚ), (0:ℚ), (0:ℚ)), (0, 0, 0)] 0].length <
      ([0, 5] : List ℚ).length := by
  have hre : roundHalfEven ((10 : ℚ) - 0) = 10 := by
    norm_num [roundHalfEven]
  have hsorted : ([0, 1] : List ℚ).Sorted (· < ·) := by
    simp [List.sorted_cons]
  have hbey : ([0, 1] : List ℚ).getD (([0, 1] : List ℚ).length - 1) 0 ≤ 5 := by
    norm_num [List.getD]
  have hok : interpDense [0, 5] [0, 1] [((0:ℚ), (0:ℚ), (0:ℚ)), (0, 0, 0)] =
      .ok [baryEval3 [0, 1] [((0:ℚ), (0:ℚ), (0:ℚ)), (0, 0, 0)] 0] := by
    unfold interpDense windowFilter
    norm_num [List.range_succ, pySlice]
    rfl
  refine ⟨?_, ?_, hok, ?_⟩
  · have := t_list_overshoot_unvalidated.1 0 10 3 (by norm_num)
      (by rw [hre]; norm_num)
      (by
        rw [hre]
        rintro ⟨k, hk⟩
        have hk2 : (k * 3 : ℤ) = 10 := by exact_mod_cast hk
        omega)
      (by rw [hre]; norm_num)
    simpa using this
  · exact t_list_overshoot_unvalidated.2.1 [0, 1] [((0:ℚ), (0:ℚ), (0:ℚ)), (0, 0, 0)] 5
      hsorted hbey
  · exact t_list_overshoot_unvalidated.2.2 [0, 5] [0, 1]
      [((0:ℚ), (0:ℚ), (0:ℚ)), (0, 0, 0)] 5 hsorted (by norm_num) hbey
      [baryEval3 [0, 1] [((0:ℚ), (0:ℚ), (0:ℚ)), (0, 0, 0)] 0] hok

theorem roundHalfEven_natCast (n : ℕ) : roundHalfEven (n : ℚ) = n := by
  unfold roundHalfEven
  rw [Int.floor_natCast]
  norm_num

theorem arangeQ_nat (m : ℕ) :
    arangeQ 0 ((m : ℚ) + 1) 1 = (List.range (m + 1)).map (fun k : ℕ => (k : ℚ)) := by
  unfold arangeQ
  have hc : ⌈(((m : ℚ) + 1) - 0) / 1⌉ = (m : ℤ) + 1 := by
    rw [sub_zero, div_one]
    rw [show ((m : ℚ) + 1) = (((m : ℤ) + 1 : ℤ) : ℚ) from by push_cast; ring]
    exact Int.ceil_intCast _
  rw [hc]
  rw [show ((m : ℤ) + 1).toNat = m + 1 from by omega]
  apply List.map_congr_left
  intro k _
  ring

theorem getLastD_map_range {α : Type} (n : ℕ) (f : ℕ → α) (d : α) :
    ((List.range (n + 1)).map f).getLastD d = f n := by
  rw [List.getLastD_eq_getLast?, List.getLast?_eq_getElem?, List.length_map,
    List.length_range, List.getElem?_map, List.getElem?_range (by omega : n + 1 - 1 < n + 1)]
  rfl

theorem t_list_window (b : ℚ) (n : ℕ) :
    t_list b (b + (n : ℚ)) 1 = (List.range (n + 1)).map (fun k : ℕ => b + (k : ℚ)) := by
  have h1 : roundHalfEven (b + (n : ℚ) - b) = (n : ℤ) := by
    rw [show b + (n : ℚ) - b = (n : ℚ) from by ring, roundHalfEven_natCast]
  simp only [t_list, h1, Int.cast_natCast]
  rw [arangeQ_nat, List.map_map]
  apply List.map_congr_left
  intro k _
  simp

theorem maskSelect_range (n : ℕ) (f : ℕ → Bool) :
    maskSelect ((List.range (n + 1)).map (fun k : ℕ => (k : ℚ)))
        ((List.range (n + 1)).map f) =
      ((List.range (n + 1)).filter f).map (fun k : ℕ => (k : ℚ)) := by
  unfold maskSelect
  rw [List.zip_map']
  rw [List.filter_map, List.map_map]
  congr 1

theorem head_filter_range_min (m : ℕ) (p : ℕ → Bool) (k : ℕ)
    (h : ((List.range m).filter p).head? = some k) :
    k < m ∧ p k = true ∧ ∀ j, j < k → p j = false := by
  rcases hl : (List.range m).filter p with _ | ⟨a, t⟩
  · rw [hl] at h
    exact absurd h (by simp)
  · rw [hl] at h
    have hak : a = k := Option.some.inj (by simpa using h)
    subst hak
    have hmem : a ∈ (List.range m).filter p := by
      rw [hl]
      exact List.mem_cons_self _ _
    obtain ⟨hr, hp⟩ := List.mem_filter.mp hmem
    refine ⟨List.mem_range.mp hr, hp, ?_⟩
    intro j hj
    by_contra hcon
    have hjp : p j = true := by
      cases hpj : p j
      · exact absurd hpj hcon
      · rfl
    have hjm : j ∈ (List.range m).filter p :=
      List.mem_filter.mpr ⟨List.mem_range.mpr (lt_trans hj (List.mem_range.mp hr)), hjp⟩
    rw [hl] at hjm
    have hsor : (a :: t).Sorted (· < ·) := by
      rw [← hl]
      exact (List.sorted_lt_range m).filter p
    rcases List.mem_cons.mp hjm with he | hin
    · omega
    · have := (List.sorted_cons.mp hsor).1 j hin
      omega

theorem sorted_le_getLast : ∀ (l : List ℕ), l.Sorted (· < ·) →
    ∀ k, l.getLast? = some k → ∀ x ∈ l, x ≤ k
  | [], _, k, h, x, hx => absurd h (by simp)
  | [a], _, k, h, x, hx => by
    have hak : a = k := Option.some.inj (by simpa using h)
    have hxa : x = a := by simpa using hx
    omega
  | a :: b :: t, hs, k, h, x, hx => by
    rw [List.getLast?_cons_cons] at h
    have hs2 : (b :: t).Sorted (· < ·) := (List.sorted_cons.mp hs).2
    have hk : k ∈ b :: t := by
      obtain ⟨hne, hke⟩ := List.mem_getLast?_eq_getLast (Option.mem_def.mpr h)
      rw [hke]
      exact List.getLast_mem hne
    rcases List.mem_cons.mp hx with he | hin
    · subst he
      exact le_of_lt ((List.sorted_cons.mp hs).1 k hk)
    · exact sorted_le_getLast (b :: t) hs2 k h x hin

theorem getLast_filter_range_max (m : ℕ) (p : ℕ → Bool) (k : ℕ)
    (h : ((List.range m).filter p).getLast? = some k) :
    k < m ∧ p k = true ∧ ∀ j, k < j → j < m → p j = false := by
  have hmem : k ∈ (List.range m).filter p := by
    obtain ⟨hne, hke⟩ := List.mem_getLast?_eq_getLast (Option.mem_def.mpr h)
    rw [hke]
    exact List.getLast_mem hne
  obtain ⟨hr, hp⟩ := List.mem_filter.mp hmem
  refine ⟨List.mem_range.mp hr, hp, ?_⟩
  intro j hkj hjm
  by_contra hcon
  have hjp : p j = true := by
    cases hpj : p j
    · exact absurd hpj hcon
    · rfl
  have hjm2 : j ∈ (List.range m).filter p :=
    List.mem_filter.mpr ⟨List.mem_range.mpr hjm, hjp⟩
  have hsor : ((List.range m).filter p).Sorted (· < ·) := (List.sorted_lt_range m).filter p
  have := sorted_le_getLast _ hsor k h j hjm2
  omega

theorem refinePass_spec (altAt : ℚ → ℚ) (cutoff : ℚ) (n : ℕ) (b : ℚ × ℚ)
    (pr ps : ℚ) (h : refinePass altAt (n : ℚ) cutoff b = .ok (pr, ps)) :
    (∃ k, k ≤ n ∧ pr = b.1 + (k : ℚ) ∧ cutoff < altAt (b.1 + (k : ℚ)) ∧
       ∀ j : ℕ, j < k → ¬ cutoff < altAt (b.1 + (j : ℚ))) ∧
    ((cutoff < altAt (b.2 + (n : ℚ))) →
       ∃ k, k ≤ n ∧ ps = b.2 + (k : ℚ) ∧ cutoff < altAt (b.2 + (k : ℚ)) ∧
         ∀ j : ℕ, j < k → ¬ cutoff < altAt (b.2 + (j : ℚ))) ∧
    ((¬ cutoff < altAt (b.2 + (n : ℚ))) →
       ∃ k, k ≤ n ∧ ps = b.2 + (k : ℚ) ∧ cutoff < altAt (b.2 + (k : ℚ)) ∧
         ∀ j : ℕ, k < j → j ≤ n → ¬ cutoff < altAt (b.2 + (j : ℚ))) := by
  simp only [refinePass] at h
  rw [arangeQ_nat n] at h
  rw [getLastD_map_range n _ (0 : ℚ)] at h
  rw [t_list_window b.1 n, t_list_window b.2 n] at h
  rw [List.map_map, List.map_map] at h
  simp only [Function.comp_def] at h
  rw [maskSelect_range, maskSelect_range] at h
  rw [List.head?_map] at h
  rw [getLastD_map_range n _ false] at h
  rcases hR : ((List.range (n + 1)).filter
      (fun k : ℕ => decide (cutoff < altAt (b.1 + (k : ℚ))))).head? with _ | k0
  · simp only [hR, Option.map_none'] at h
    exact Except.noConfusion h
  · simp only [hR, Option.map_some'] at h
    obtain ⟨hk0m, hk0p, hk0min⟩ := head_filter_range_min (n + 1) _ k0 hR
    have hrise : ∃ k, k ≤ n ∧ b.1 + (k0 : ℚ) = b.1 + (k : ℚ) ∧
        cutoff < altAt (b.1 + (k : ℚ)) ∧
        ∀ j : ℕ, j < k → ¬ cutoff < altAt (b.1 + (j : ℚ)) := by
      refine ⟨k0, by omega, rfl, of_decide_eq_true hk0p, ?_⟩
      intro j hj
      exact of_decide_eq_false (hk0min j hj)
    by_cases hc : cutoff < altAt (b.2 + (n : ℚ))
    · rw [if_pos (decide_eq_true hc)] at h
      rw [List.head?_map] at h
      rcases hS : ((List.range (n + 1)).filter
          (fun k : ℕ => decide (cutoff < altAt (b.2 + (k : ℚ))))).head? with _ | k1
      · simp only [hS, Option.map_none'] at h
        exact Except.noConfusion h
      · simp only [hS, Option.map_some'] at h
        have hpair := Except.ok.inj h
        have hpr := congrArg Prod.fst hpair
        have hps := congrArg Prod.snd hpair
        simp only at hpr hps
        obtain ⟨hk1m, hk1p, hk1min⟩ := head_filter_range_min (n + 1) _ k1 hS
        refine ⟨by rw [← hpr]; exact hrise, ?_, ?_⟩
        · intro _
          refine ⟨k1, by omega, hps.symm, of_decide_eq_true hk1p, ?_⟩
          intro j hj
          exact of_decide_eq_false (hk1min j hj)
        · intro hcon
          exact absurd hc hcon
    · rw [if_neg (fun hh => absurd (of_decide_eq_true hh) hc)] at h
      rw [List.getLast?_map] at h
      rcases hS : ((List.range (n + 1)).filter
          (fun k : ℕ => decide (cutoff < altAt (b.2 + (k : ℚ))))).getLast? with _ | k1
      · simp only [hS, Option.map_none'] at h
        exact Except.noConfusion h
      · simp only [hS, Option.map_some'] at h
        have hpair := Except.ok.inj h
        have hpr := congrArg Prod.fst hpair
        have hps := congrArg Prod.snd hpair
        simp only at hpr hps
        obtain ⟨hk1m, hk1p, hk1max⟩ := getLast_filter_range_max (n + 1) _ k1 hS
        refine ⟨by rw [← hpr]; exact hrise, ?_, ?_⟩
        · intro hcon
          exact absurd hcon hc
        · intro _
          refine ⟨k1, by omega, hps.symm, of_decide_eq_true hk1p, ?_⟩
          intro j hj hjn
          exact of_decide_eq_false (hk1max j hj (by omega))

theorem refineAll_mem (altAt : ℚ → ℚ) (t_step cutoff : ℚ) :
    ∀ (l : List (ℚ × ℚ)) (out : List (ℚ × ℚ)),
      refineAll altAt t_step cutoff l = .ok out →
      ∀ p ∈ out, ∃ b ∈ l, refinePass altAt t_step cutoff b = .ok p
  | [], out, h, p, hp => by
    have : out = [] := (Except.ok.inj h).symm
    subst this
    exact absurd hp (by simp)
  | b :: rest, out, h, p, hp => by
    rw [refineAll] at h
    simp only [Bind.bind, Except.bind] at h
    rcases hb : refinePass altAt t_step cutoff b with e | p0
    · rw [hb] at h
      exact absurd h (by simp)
    · rw [hb] at h
      rcases hr : refineAll altAt t_step cutoff rest with e | ps
      · rw [hr] at h
        exact absurd h (by simp)
      · rw [hr] at h
        have hout : out = p0 :: ps := (Except.ok.inj h).symm
        subst hout
        rcases List.mem_cons.mp hp with he | hin
        · subst he
          exact ⟨b, List.mem_cons_self _ _, hb⟩
        · obtain ⟨b2, hb2m, hb2⟩ := refineAll_mem altAt t_step cutoff rest ps hr p hin
          exact ⟨b2, List.mem_cons_of_mem _ hb2m, hb2⟩

theorem pairUp_map {α β : Type} (f : α → β) :
    ∀ l : List α, pairUp (l.map f) = (pairUp l).map (fun q => (f q.1, f q.2))
  | [] => rfl
  | [a] => rfl
  | a :: b :: rest => by
    simp only [List.map_cons]
    rw [show pairUp (f a :: f b :: rest.map f) = (f a, f b) :: pairUp (rest.map f) from rfl]
    rw [show pairUp (a :: b :: rest) = (a, b) :: pairUp rest from rfl]
    rw [List.map_cons, pairUp_map f rest]

theorem pairUp_chain_le : ∀ l : List ℕ, l.Chain' (· ≤ ·) → ∀ q ∈ pairUp l, q.1 ≤ q.2
  | [], _, q, hq => absurd hq (by simp [pairUp])
  | [a], _, q, hq => absurd hq (by simp [pairUp])
  | a :: b :: rest, hc, q, hq => by
    rw [show pairUp (a :: b :: rest) = (a, b) :: pairUp rest from rfl] at hq
    have hab : a ≤ b := (List.chain'_cons.mp hc).1
    have hrest : rest.Chain' (· ≤ ·) := ((List.chain'_cons.mp hc).2).tail
    rcases List.mem_cons.mp hq with he | hin
    · subst he
      exact hab
    · exact pairUp_chain_le rest hrest q hin

theorem pairUp_mem_mem : ∀ (l : List ℕ) (q : ℕ × ℕ), q ∈ pairUp l → q.1 ∈ l ∧ q.2 ∈ l
  | [], q, hq => absurd hq (by simp [pairUp])
  | [a], q, hq => absurd hq (by simp [pairUp])
  | a :: b :: rest, q, hq => by
    rw [show pairUp (a :: b :: rest) = (a, b) :: pairUp rest from rfl] at hq
    rcases List.mem_cons.mp hq with he | hin
    · subst he
      exact ⟨List.mem_cons_self _ _, List.mem_cons_of_mem _ (List.mem_cons_self _ _)⟩
    · obtain ⟨h1, h2⟩ := pairUp_mem_mem rest q hin
      exact ⟨List.mem_cons_of_mem _ (List.mem_cons_of_mem _ h1),
        List.mem_cons_of_mem _ (List.mem_cons_of_mem _ h2)⟩

theorem changes_lt (sat : List Bool) : ∀ i ∈ changes sat, i < sat.length - 1 := by
  intro i hi
  exact List.mem_range.mp (List.mem_filter.mp hi).1

theorem changes_sorted (sat : List Bool) : (changes sat).Sorted (· < ·) :=
  (List.sorted_lt_range _).filter _

theorem passNodes_spec (sat : List Bool) :
    (passNodes sat).Chain' (· ≤ ·) ∧ ∀ i ∈ passNodes sat, i ≤ sat.length - 1 := by
  simp only [passNodes]
  set ns0 := changes sat with hns0
  have h0chain : ns0.Chain' (· ≤ ·) :=
    ((changes_sorted sat).imp (fun h => le_of_lt h)).chain'
  have h0bound : ∀ i ∈ ns0, i ≤ sat.length - 1 := by
    intro i hi
    have := changes_lt sat i hi
    omega
  set ns1 := if sat.getD (ns0.headD 0) false = true then 0 :: ns0 else ns0 with hns1
  have h1chain : ns1.Chain' (· ≤ ·) := by
    rw [hns1]
    by_cases hc : sat.getD (ns0.headD 0) false = true
    · rw [if_pos hc]
      exact List.chain'_cons'.mpr ⟨fun y _ => Nat.zero_le y, h0chain⟩
    · rw [if_neg hc]
      exact h0chain
  have h1bound : ∀ i ∈ ns1, i ≤ sat.length - 1 := by
    rw [hns1]
    by_cases hc : sat.getD (ns0.headD 0) false = true
    · rw [if_pos hc]
      intro i hi
      rcases List.mem_cons.mp hi with he | hin
      · omega
      · exact h0bound i hin
    · rw [if_neg hc]
      exact h0bound
  by_cases hp : ns1.length % 2 ≠ 0
  · rw [if_pos hp]
    constructor
    · apply List.chain'_append.mpr
      refine ⟨h1chain, List.chain'_singleton _, ?_⟩
      intro x hx y hy
      have hxm : x ∈ ns1 := by
        obtain ⟨hne, hke⟩ := List.mem_getLast?_eq_getLast hx
        rw [hke]
        exact List.getLast_mem hne
      have hy2 : y = sat.length - 1 := by
        have := hy
        simp at this
        omega
      subst hy2
      exact h1bound x hxm
    · intro i hi
      rcases List.mem_append.mp hi with hin | hsing
      · exact h1bound i hin
      · have : i = sat.length - 1 := by simpa using hsing
        omega
  · rw [if_neg hp]
    exact ⟨h1chain, h1bound⟩

theorem arangeQ_getD (s e st : ℚ) (i : ℕ) (hi : i < (arangeQ s e st).length) :
    (arangeQ s e st).getD i 0 = s + (i : ℚ) * st := by
  unfold arangeQ at hi ⊢
  rw [List.length_map, List.length_range] at hi
  rw [List.getD_eq_getElem?_getD, List.getElem?_map, List.getElem?_range hi]
  rfl

theorem t_list_getD (s e st : ℚ) (i : ℕ) (hi : i < (t_list s e st).length) :
    (t_list s e st).getD i 0 = s + (i : ℚ) * st := by
  simp only [t_list] at hi ⊢
  rw [List.length_map] at hi
  rw [List.getD_eq_getElem?_getD, List.getElem?_map]
  have h2 := arangeQ_getD 0 (((roundHalfEven (e - s) : ℤ) : ℚ) + st) st i hi
  rw [List.getD_eq_getElem?_getD] at h2
  rcases he : (arangeQ 0 (((roundHalfEven (e - s) : ℤ) : ℚ) + st) st)[i]? with _ | v
  · rw [he] at h2
    exact absurd (List.getElem?_eq_none_iff.mp he) (by omega)
  · rw [he] at h2
    simp only [Option.getD_some] at h2
    rw [show Option.map (fun x => s + x) (some v) = some (s + v) from rfl]
    rw [Option.getD_some, h2]
    ring

theorem const_upto (sat : List Bool) (c : ℕ)
    (hconst : ∀ j, j < c → sat.getD j false = sat.getD (j + 1) false) :
    sat.getD c false = sat.getD 0 false := by
  induction c with
  | zero => rfl
  | succ c ih =>
    have h1 : sat.getD c false = sat.getD 0 false :=
      ih (fun j hj => hconst j (by omega))
    rw [← h1]
    exact (hconst c (by omega)).symm

theorem changes_headD_const (sat : List Bool) (hne : changes sat ≠ []) :
    sat.getD ((changes sat).headD 0) false = sat.getD 0 false := by
  rcases hl : changes sat with _ | ⟨c, t⟩
  · exact absurd hl hne
  · rw [List.headD_cons]
    have hhead : (changes sat).head? = some c := by rw [hl]; rfl
    have hmin := head_filter_range_min (sat.length - 1) _ c hhead
    apply const_upto
    intro j hj
    have hf := hmin.2.2 j hj
    have : (sat.getD j false != sat.getD (j + 1) false) = false := by
      simpa using hf
    simpa using this

theorem tl_042 : t_list (0:ℚ) 4 2 = [0, 2, 4] := by
  have h4 : roundHalfEven ((4:ℚ) - 0) = 4 := by norm_num [roundHalfEven]
  simp only [t_list, h4]
  norm_num [arangeQ]
  rw [show Int.toNat 3 = 3 from rfl]
  simp [List.range_succ]
  try norm_num

theorem sec_012 : arangeQ 0 ((2:ℚ) + 1) 1 = [0, 1, 2] := by
  norm_num [arangeQ]
  rw [show Int.toNat 3 = 3 from rfl]
  simp [List.range_succ]
  try norm_num

theorem tl_021 : t_list (0:ℚ) (0 + 2) 1 = [0, 1, 2] := by
  have h2 : roundHalfEven ((0:ℚ) + 2 - 0) = 2 := by norm_num [roundHalfEven]
  simp only [t_list, h2]
  norm_num [arangeQ]
  rw [show Int.toNat 3 = 3 from rfl]
  simp [List.range_succ]
  try norm_num

theorem tl_421 : t_list (4:ℚ) (4 + 2) 1 = [4, 5, 6] := by
  have h2 : roundHalfEven ((4:ℚ) + 2 - 4) = 2 := by norm_num [roundHalfEven]
  simp only [t_list, h2]
  norm_num [arangeQ]
  rw [show Int.toNat 3 = 3 from rfl]
  simp [List.range_succ]
  try norm_num

theorem rp6 : refinePass (fun x => if x < 1 then (-1:ℚ) else 1) 2 0 (0, 4) = .ok (1, 4) := by
  simp only [refinePass, sec_012]
  rw [show ([0, 1, 2] : List ℚ).getLastD 0 = 2 from rfl]
  rw [tl_021, tl_421]
  rw [show ([0, 1, 2] : List ℚ).map
      (fun x => decide ((0:ℚ) < if x < 1 then (-1:ℚ) else 1)) = [false, true, true] from by
    norm_num]
  rw [show ([4, 5, 6] : List ℚ).map
      (fun x => decide ((0:ℚ) < if x < 1 then (-1:ℚ) else 1)) = [true, true, true] from by
    norm_num]
  rw [show maskSelect [0, 1, 2] [false, true, true] = [1, 2] from rfl]
  rw [show maskSelect [0, 1, 2] [true, true, true] = [0, 1, 2] from rfl]
  norm_num

theorem npEval6 :
    next_pass_horizon (fun x => if x < 1 then (-1:ℚ) else 1) 0 4 2 0 = .ok [(1, 4)] := by
  have hsat : ([0, 2, 4] : List ℚ).map
      (fun x => decide ((0:ℚ) < if x < 1 then (-1:ℚ) else 1)) = [false, true, true] := by
    norm_num
  simp only [next_pass_horizon, tl_042, hsat]
  rw [if_neg (show ¬ (changes [false, true, true] = []) from by decide)]
  rw [show pairUp ((passNodes [false, true, true]).map
      (fun i => ([0, 2, 4] : List ℚ).getD i 0)) = [(0, 4)] from rfl]
  simp only [refineAll, rp6, Bind.bind, Except.bind]

theorem rp7 : refinePass (fun x => if x = 0 then (1:ℚ) else -1) 2 0 (0, 0) = .ok (0, 0) := by
  simp only [refinePass, sec_012]
  rw [show ([0, 1, 2] : List ℚ).getLastD 0 = 2 from rfl]
  rw [tl_021]
  rw [show ([0, 1, 2] : List ℚ).map
      (fun x => decide ((0:ℚ) < if x = 0 then (1:ℚ) else -1)) = [true, false, false] from by
    norm_num]
  rw [show maskSelect [0, 1, 2] [true, false, false] = [0] from rfl]
  norm_num

theorem npEval7 :
    next_pass_horizon (fun x => if x = 0 then (1:ℚ) else -1) 0 4 2 0 = .ok [(0, 0)] := by
  have hsat : ([0, 2, 4] : List ℚ).map
      (fun x => decide ((0:ℚ) < if x = 0 then (1:ℚ) else -1)) = [true, false, false] := by
    norm_num
  simp only [next_pass_horizon, tl_042, hsat]
  rw [if_neg (show ¬ (changes [true, false, false] = []) from by decide)]
  rw [show pairUp ((passNodes [true, false, false]).map
      (fun i => ([0, 2, 4] : List ℚ).getD i 0)) = [(0, 0)] from rfl]
  simp only [refineAll, rp7, Bind.bind, Except.bind]

theorem passNodes_even (sat : List Bool) : (passNodes sat).length % 2 = 0 := by
  simp only [passNodes]
  by_cases hc : sat.getD ((changes sat).headD 0) false = true
  · rw [if_pos hc]
    by_cases hp : (0 :: changes sat).length % 2 ≠ 0
    · rw [if_pos hp, List.length_append]
      simp only [List.length_singleton]
      omega
    · rw [if_neg hp]
      omega
  · rw [if_neg hc]
    by_cases hp : (changes sat).length % 2 ≠ 0
    · rw [if_pos hp, List.length_append]
      simp only [List.length_singleton]
      omega
    · rw [if_neg hp]
      omega

/-- C6 (amended): each pass returned by `next_pass_horizon` arises from
refining one coarse boundary pair at 1-second resolution over a
t_step-wide window: the refined rise is the FIRST 1-second sample above
the cutoff in the rise window, while the refined set is likewise the
FIRST above-cutoff sample of the set window whenever that window's final
sample is above the cutoff, and the LAST above-cutoff sample only when
the set window ends below the cutoff. -/
theorem pass_refinement_rule (altAt : ℚ → ℚ) (t_start t_end cutoff : ℚ) (n : ℕ)
    (out : List (ℚ × ℚ))
    (h : next_pass_horizon altAt t_start t_end (n : ℚ) cutoff = .ok out)
    (hch : changes ((t_list t_start t_end (n : ℚ)).map
      (fun x => decide (cutoff < altAt x))) ≠ [])
    (p : ℚ × ℚ) (hp : p ∈ out) :
    ∃ b ∈ pairUp ((passNodes ((t_list t_start t_end (n : ℚ)).map
        (fun x => decide (cutoff < altAt x)))).map
        (fun i => (t_list t_start t_end (n : ℚ)).getD i 0)),
      refinePass altAt (n : ℚ) cutoff b = .ok p ∧
      (∃ k, k ≤ n ∧ p.1 = b.1 + (k : ℚ) ∧ cutoff < altAt (b.1 + (k : ℚ)) ∧
        ∀ j : ℕ, j < k → ¬ cutoff < altAt (b.1 + (j : ℚ))) ∧
      (cutoff < altAt (b.2 + (n : ℚ)) →
        ∃ k, k ≤ n ∧ p.2 = b.2 + (k : ℚ) ∧ cutoff < altAt (b.2 + (k : ℚ)) ∧
          ∀ j : ℕ, j < k → ¬ cutoff < altAt (b.2 + (j : ℚ))) ∧
      (¬ cutoff < altAt (b.2 + (n : ℚ)) →
        ∃ k, k ≤ n ∧ p.2 = b.2 + (k : ℚ) ∧ cutoff < altAt (b.2 + (k : ℚ)) ∧
          ∀ j : ℕ, k < j → j ≤ n → ¬ cutoff < altAt (b.2 + (j : ℚ))) := by
  simp only [next_pass_horizon] at h
  rw [if_neg hch] at h
  obtain ⟨b, hbm, hbp⟩ := refineAll_mem altAt (n : ℚ) cutoff _ out h p hp
  have hspec := refinePass_spec altAt cutoff n b p.1 p.2 (by rw [Prod.mk.eta]; exact hbp)
  exact ⟨b, hbm, hbp, hspec.1, hspec.2.1, hspec.2.2⟩

theorem pass_refinement_rule_witness :
    ∃ b ∈ pairUp ((passNodes ((t_list 0 4 ((2 : ℕ) : ℚ)).map
        (fun x => decide ((0:ℚ) < (fun x => if x < 1 then (-1:ℚ) else 1) x)))).map
        (fun i => (t_list 0 4 ((2 : ℕ) : ℚ)).getD i 0)),
      refinePass (fun x => if x < 1 then (-1:ℚ) else 1) ((2 : ℕ) : ℚ) 0 b = .ok (1, 4) ∧
      (∃ k : ℕ, k ≤ 2 ∧ (1 : ℚ) = b.1 + (k : ℚ) ∧
        (0:ℚ) < (fun x => if x < 1 then (-1:ℚ) else 1) (b.1 + (k : ℚ)) ∧
        ∀ j : ℕ, j < k →
          ¬ (0:ℚ) < (fun x => if x < 1 then (-1:ℚ) else 1) (b.1 + (j : ℚ))) ∧
      ((0:ℚ) < (fun x => if x < 1 then (-1:ℚ) else 1) (b.2 + ((2 : ℕ) : ℚ)) →
        ∃ k : ℕ, k ≤ 2 ∧ (4 : ℚ) = b.2 + (k : ℚ) ∧
          (0:ℚ) < (fun x => if x < 1 then (-1:ℚ) else 1) (b.2 + (k : ℚ)) ∧
          ∀ j : ℕ, j < k →
            ¬ (0:ℚ) < (fun x => if x < 1 then (-1:ℚ) else 1) (b.2 + (j : ℚ))) ∧
      (¬ (0:ℚ) < (fun x => if x < 1 then (-1:ℚ) else 1) (b.2 + ((2 : ℕ) : ℚ)) →
        ∃ k : ℕ, k ≤ 2 ∧ (4 : ℚ) = b.2 + (k : ℚ) ∧
          (0:ℚ) < (fun x => if x < 1 then (-1:ℚ) else 1) (b.2 + (k : ℚ)) ∧
          ∀ j : ℕ, k < j → j ≤ 2 →
            ¬ (0:ℚ) < (fun x => if x < 1 then (-1:ℚ) else 1) (b.2 + (j : ℚ))) := by
  have hcast : ((2 : ℕ) : ℚ) = (2 : ℚ) := by norm_num
  exact pass_refinement_rule (fun x => if x < 1 then (-1:ℚ) else 1) 0 4 0 2 [(1, 4)]
    (by rw [hcast]; exact npEval6)
    (by
      rw [hcast, tl_042]
      rw [show ([0, 2, 4] : List ℚ).map
          (fun x => decide ((0:ℚ) < (fun x => if x < 1 then (-1:ℚ) else 1) x)) =
          [false, true, true] from by norm_num]
      decide)
    (1, 4) (by simp)

/-- C6 counterexample: for altitude crossing up at t = 1 and staying above,
`next_pass_horizon` returns the pass (1, 4): every 1-second sample of the
t_step-wide set window starting at the coarse set node 4 is above the
cutoff (the window never drops back below), yet the returned set time is
the window's FIRST above-cutoff sample 4, not its last above-cutoff
sample 4 + 2. -/
theorem set_refinement_counterexample :
    next_pass_horizon (fun x => if x < 1 then (-1:ℚ) else 1) 0 4 2 0 = .ok [(1, 4)] ∧
    (∀ k : ℕ, k ≤ 2 → (0:ℚ) < (if ((4:ℚ) + (k : ℚ)) < 1 then (-1:ℚ) else 1)) ∧
    ((4 : ℚ) ≠ 4 + 2) := by
  refine ⟨npEval6, ?_, by norm_num⟩
  intro k hk
  rw [if_neg]
  · norm_num
  · push_neg
    have : (0:ℚ) ≤ (k : ℚ) := Nat.cast_nonneg k
    linarith

/-- C7 (amended): for every coarse elevation series produced by
`next_pass_horizon`: if the above-cutoff boolean series has no change of
value, exactly one pass spanning the whole requested window is returned
when the series starts above the cutoff and no passes are returned
otherwise; the prepend condition (the value at the first change node)
coincides with the series value at index 0, so index 0 is prepended
exactly when the series starts above; the final node count is always
even, so nodes pair up as (rise, set); and every returned refined pass
satisfies rise ≤ set (equality is possible). -/
theorem pass_node_invariants :
    (∀ altAt : ℚ → ℚ, ∀ t_start t_end t_step cutoff : ℚ,
      changes ((t_list t_start t_end t_step).map (fun x => decide (cutoff < altAt x))) = [] →
      next_pass_horizon altAt t_start t_end t_step cutoff =
        (if ((t_list t_start t_end t_step).map
            (fun x => decide (cutoff < altAt x))).getD 0 false = true
         then .ok [(t_start, t_end)] else .ok [])) ∧
    (∀ sat : List Bool, changes sat ≠ [] →
      sat.getD ((changes sat).headD 0) false = sat.getD 0 false) ∧
    (∀ sat : List Bool, (passNodes sat).length % 2 = 0) ∧
    (∀ altAt : ℚ → ℚ, ∀ t_start t_end cutoff : ℚ, ∀ n : ℕ, ∀ out : List (ℚ × ℚ),
      next_pass_horizon altAt t_start t_end (n : ℚ) cutoff = .ok out →
      changes ((t_list t_start t_end (n : ℚ)).map
        (fun x => decide (cutoff < altAt x))) ≠ [] →
      ∀ p ∈ out, p.1 ≤ p.2) := by
  refine ⟨?_, changes_headD_const, passNodes_even, ?_⟩
  · intro altAt t_start t_end t_step cutoff hch
    simp only [next_pass_horizon]
    rw [if_pos hch]
  · intro altAt t_start t_end cutoff n out h hch p hp
    simp only [next_pass_horizon] at h
    rw [if_neg hch] at h
    obtain ⟨b, hbm, hbp⟩ := refineAll_mem altAt (n : ℚ) cutoff _ out h p hp
    rw [pairUp_map] at hbm
    obtain ⟨q, hq, hbq⟩ := List.mem_map.mp hbm
    have hspec := refinePass_spec altAt cutoff n b p.1 p.2 (by rw [Prod.mk.eta]; exact hbp)
    obtain ⟨k0, hk0n, hp1, hk0ab, hk0min⟩ := hspec.1
    have hps : ∃ k1, k1 ≤ n ∧ p.2 = b.2 + (k1 : ℚ) ∧ cutoff < altAt (b.2 + (k1 : ℚ)) := by
      by_cases hc : cutoff < altAt (b.2 + (n : ℚ))
      · obtain ⟨k1, h1, h2, h3, _⟩ := hspec.2.1 hc
        exact ⟨k1, h1, h2, h3⟩
      · obtain ⟨k1, h1, h2, h3, _⟩ := hspec.2.2 hc
        exact ⟨k1, h1, h2, h3⟩
    obtain ⟨k1, hk1n, hp2, hk1ab⟩ := hps
    have hchain := (passNodes_spec ((t_list t_start t_end (n : ℚ)).map
      (fun x => decide (cutoff < altAt x)))).1
    have hbound := (passNodes_spec ((t_list t_start t_end (n : ℚ)).map
      (fun x => decide (cutoff < altAt x)))).2
    have hqle : q.1 ≤ q.2 := pairUp_chain_le _ hchain q hq
    obtain ⟨hq1m, hq2m⟩ := pairUp_mem_mem _ q hq
    have hlen2 : 2 ≤ (t_list t_start t_end (n : ℚ)).length := by
      by_contra hcon
      apply hch
      unfold changes
      rw [List.length_map]
      rw [show (t_list t_start t_end (n : ℚ)).length - 1 = 0 from by omega]
      rfl
    have hb1 : b.1 = (t_list t_start t_end (n : ℚ)).getD q.1 0 :=
      (congrArg Prod.fst hbq).symm
    have hb2 : b.2 = (t_list t_start t_end (n : ℚ)).getD q.2 0 :=
      (congrArg Prod.snd hbq).symm
    have hq1b := hbound q.1 hq1m
    have hq2b := hbound q.2 hq2m
    rw [List.length_map] at hq1b hq2b
    have hq1lt : q.1 < (t_list t_start t_end (n : ℚ)).length := by omega
    have hq2lt : q.2 < (t_list t_start t_end (n : ℚ)).length := by omega
    have ht1 := t_list_getD t_start t_end (n : ℚ) q.1 hq1lt
    have ht2 := t_list_getD t_start t_end (n : ℚ) q.2 hq2lt
    rcases Nat.eq_or_lt_of_le hqle with he | hlt
    · have hbb : b.1 = b.2 := by rw [hb1, hb2, he]
      have hk01 : k0 ≤ k1 := by
        by_contra hcon
        exact (hk0min k1 (by omega)) (by rw [hbb]; exact hk1ab)
      have hcast : (k0 : ℚ) ≤ (k1 : ℚ) := Nat.cast_le.mpr hk01
      rw [hp1, hp2, ← hbb]
      linarith
    · have hlt1 : ((q.1 : ℚ) + 1) * (n : ℚ) ≤ (q.2 : ℚ) * (n : ℚ) := by
        have hc1 : ((q.1 + 1 : ℕ) : ℚ) ≤ ((q.2 : ℕ) : ℚ) := Nat.cast_le.mpr (by omega)
        have hn0 : (0:ℚ) ≤ (n : ℚ) := Nat.cast_nonneg n
        calc ((q.1 : ℚ) + 1) * (n : ℚ) = ((q.1 + 1 : ℕ) : ℚ) * (n : ℚ) := by push_cast; ring
        _ ≤ ((q.2 : ℕ) : ℚ) * (n : ℚ) := mul_le_mul_of_nonneg_right hc1 hn0
      have hk0c : (k0 : ℚ) ≤ (n : ℚ) := Nat.cast_le.mpr hk0n
      have hk1c : (0:ℚ) ≤ (k1 : ℚ) := Nat.cast_nonneg k1
      rw [hp1, hp2, hb1, hb2, ht1, ht2]
      linarith

theorem pass_node_invariants_witness :
    next_pass_horizon (fun _ => (1:ℚ)) 0 4 2 0 = .ok [(0, 4)] ∧
    [true, false, false].getD ((changes [true, false, false]).headD 0) false =
      [true, false, false].getD 0 false ∧
    (passNodes [true, false, false]).length % 2 = 0 ∧
    ((1 : ℚ), (4 : ℚ)).1 ≤ ((1 : ℚ), (4 : ℚ)).2 := by
  have hcast : ((2 : ℕ) : ℚ) = (2 : ℚ) := by norm_num
  refine ⟨?_, pass_node_invariants.2.1 [true, false, false] (by decide),
    pass_node_invariants.2.2.1 [true, false, false], ?_⟩
  · have h1 := pass_node_invariants.1 (fun _ => (1:ℚ)) 0 4 2 0
      (by
        rw [tl_042]
        rw [show ([0, 2, 4] : List ℚ).map
            (fun x => decide ((0:ℚ) < (fun _ => (1:ℚ)) x)) = [true, true, true] from by
          norm_num]
        decide)
    rw [tl_042] at h1
    rw [show ([0, 2, 4] : List ℚ).map
        (fun x => decide ((0:ℚ) < (fun _ => (1:ℚ)) x)) = [true, true, true] from by
      norm_num] at h1
    rw [h1]
    rfl
  · exact pass_node_invariants.2.2.2 (fun x => if x < 1 then (-1:ℚ) else 1) 0 4 0 2 [(1, 4)]
      (by rw [hcast]; exact npEval6)
      (by
        rw [hcast, tl_042]
        rw [show ([0, 2, 4] : List ℚ).map
            (fun x => decide ((0:ℚ) < (fun x => if x < 1 then (-1:ℚ) else 1) x)) =
            [false, true, true] from by norm_num]
        decide)
      (1, 4) (by simp)

/-- C7 counterexample: with the elevation above the cutoff only at the very
first coarse sample t = 0, `next_pass_horizon` returns the single refined
pass (0, 0), whose rise does not strictly precede its set. -/
theorem pass_rise_set_counterexample :
    next_pass_horizon (fun x => if x = 0 then (1:ℚ) else -1) 0 4 2 0 = .ok [(0, 0)] ∧
    ¬ ((0 : ℚ) < 0) :=
  ⟨npEval7, lt_irrefl 0⟩

end SLR
